import Mathlib

/-!
Shallow embedding of the windowed trigger/accumulator state machines of
`bin/trigger.py` (class `Capture`) and `bin/windowed_accum.py`
(class `WindowDetect`) from the pyjoulescope examples repository, together
with theorems settling the specification's claims about them.

Modelling conventions:
* sample values are exact rationals; a non-finite (NaN / missing) value is
  modelled by a finiteness flag on the sample, which is all that
  `np.isfinite` reads in the source;
* Python `int(x)` on a float is truncation toward zero, modelled exactly on
  rationals by `pyInt`;
* the unbounded `while` loop of `Capture.__call__` is modelled with a fuel
  parameter; every theorem either quantifies over the fuel or supplies one
  large enough for the concrete run;
* ghost instrumentation that does not influence the computation is added so
  that the claims are statable: the list of sample ids fed to the running
  accumulator (`fedIds`), the cumulative count of ignored non-finite samples
  (`ignored`), and an event log of searched ranges and emitted records
  (`events`).  File/recorder side effects (CSV, JLS) and wall-clock
  timestamps are outside the embedded state machine and are not modelled.
-/

namespace Trigger

/-- Scale factor `GAIN = 1e15` of the source, used as an exact integer. -/
def GAIN : ℤ := 10 ^ 15

/-- Python `int(x)` applied to a rational value: truncation toward zero. -/
def pyInt (q : ℚ) : ℤ := q.num.tdiv (q.den : ℤ)

/-- One sample of the buffered stream: the two digital inputs (`current_lsb`,
`voltage_lsb`), the analog current/voltage/power values, and finiteness flags
(`curFinite = false` models a NaN current, which is what `np.isfinite(i_all)`
tests in `Capture._add`; `volFinite` likewise for the voltage value). -/
structure Sample where
  in0 : Bool := false
  in1 : Bool := false
  cur : ℚ := 0
  vol : ℚ := 0
  pow : ℚ := 0
  curFinite : Bool := true
  volFinite : Bool := true
deriving DecidableEq, Repr

/-- The sample stream indexed by sample id. -/
abbrev SStream := ℕ → Sample

/-- Digital channel selected by `--start_signal` / `--end_signal`
(`in0`/`in1`, mapped by `FIELD_MAP` to `current_lsb`/`voltage_lsb`). -/
inductive Chan
  | in0
  | in1
deriving DecidableEq, Repr

/-- Read the selected digital channel of a sample. -/
def Sample.chan (s : Sample) : Chan → Bool
  | .in0 => s.in0
  | .in1 => s.in1

/-- Digital part of `stream_buffer.samples_get(start_id, end_id, fields=f)`:
the channel bits over the half-open range `[s, e)`. -/
def samplesGet (st : SStream) (c : Chan) (s e : ℕ) : List Bool :=
  (List.range' s (e - s)).map (fun k => (st k).chan c)

/-- Integer value of a digital sample (`gpi.astype(np.int8)`). -/
def bint (b : Bool) : ℤ := if b then 1 else 0

/-- `np.diff`: differences of consecutive elements. -/
def npDiff (g : List ℤ) : List ℤ := (g.zip g.tail).map (fun p => p.2 - p.1)

/-- `Capture._in_level_low`: first sample of `[s, e)` whose channel bit is
low, if any (`np.argmin` over a boolean array with some `False` entry is the
index of its first `False`). -/
def inLevelLow (st : SStream) (c : Chan) (s e : ℕ) : Option ℕ :=
  let gpi := samplesGet st c s e
  if gpi.all (fun b => b) then none
  else some (s + gpi.findIdx (fun b => b = false))

/-- `Capture._in_level_high`: first sample of `[s, e)` whose channel bit is
high, if any (`np.argmax` over a boolean array with some `True` entry is the
index of its first `True`). -/
def inLevelHigh (st : SStream) (c : Chan) (s e : ℕ) : Option ℕ :=
  let gpi := samplesGet st c s e
  if gpi.any (fun b => b) then some (s + gpi.findIdx (fun b => b)) else none

/-- `Capture._in_edge_rising`.  Both branches of the `start_id <= 0` test in
the source fetch the same range `[start_id, end_id)`; when `start_id == 0`
and the first sample is already high, index 0 is returned directly.
The differences `d` take values in `{-1, 0, 1}`, so `np.argmax(d)` under the
guard `np.any(d >= 1)` is the index of the first difference equal to `1`. -/
def inEdgeRising (st : SStream) (c : Chan) (s e : ℕ) : Option ℕ :=
  let gpi := samplesGet st c s e
  if s = 0 ∧ gpi.headD false = true then some s
  else
    let d := npDiff (gpi.map bint)
    if d.any (fun x => 1 ≤ x) then some (s + d.findIdx (fun x => 1 ≤ x)) else none

/-- `Capture._in_edge_falling`, mirror image of `inEdgeRising`
(`np.argmin(d)` under the guard `np.any(d <= -1)` is the index of the first
difference equal to `-1`). -/
def inEdgeFalling (st : SStream) (c : Chan) (s e : ℕ) : Option ℕ :=
  let gpi := samplesGet st c s e
  if s = 0 ∧ gpi.headD false = false then some s
  else
    let d := npDiff (gpi.map bint)
    if d.any (fun x => x ≤ -1) then some (s + d.findIdx (fun x => x ≤ -1)) else none

/-- Trigger condition kinds of `--start` / `--end`. -/
inductive TrigKind
  | tnone
  | tlow
  | thigh
  | trising
  | tfalling
  | tduration
deriving DecidableEq, Repr

/-- The configuration of a capture: trigger kinds and signals, durations in
seconds, the output sampling frequency, and `--count`
(`countMax = 0` meaning unlimited, as in the source). -/
structure Config where
  startKind : TrigKind := .tnone
  startSignal : Chan := .in0
  startDuration : ℚ := 1
  endKind : TrigKind := .tnone
  endSignal : Chan := .in0
  capDuration : ℚ := 1
  freq : ℚ := 1
  countMax : ℕ := 0
deriving DecidableEq, Repr

/-- Running statistics of one signal (`class Signal` of the source): the
fixed-point scaled running sum (`_mean`), running min/max, and the number of
accumulated samples. -/
structure Signal where
  mean : ℤ := 0
  vmin : Option ℚ := none
  vmax : Option ℚ := none
  length : ℕ := 0
deriving DecidableEq, Repr

/-- Minimum of a list of rationals (`np.min`; call sites pass nonempty
lists). -/
def listMin : List ℚ → Option ℚ
  | [] => none
  | x :: xs => some (xs.foldl min x)

/-- Maximum of a list of rationals (`np.max`). -/
def listMax : List ℚ → Option ℚ
  | [] => none
  | x :: xs => some (xs.foldl max x)

/-- `Signal.add`: accumulate a chunk of values. -/
def Signal.add (sg : Signal) (v : List ℚ) : Signal :=
  { mean := sg.mean + pyInt (v.sum * (GAIN : ℚ))
    vmin := match sg.vmin, listMin v with
      | none, m => m
      | some a, none => some a
      | some a, some m => some (min a m)
    vmax := match sg.vmax, listMax v with
      | none, m => m
      | some a, none => some a
      | some a, some m => some (max a m)
    length := sg.length + v.length }

/-- `Signal.result`: `[mean, min, max]`, with a `None` mean when no sample
was accumulated (`self._length <= 0`). -/
def Signal.result (sg : Signal) : Option ℚ × Option ℚ × Option ℚ :=
  ((if sg.length = 0 then none
    else some ((sg.mean : ℚ) / ((GAIN : ℚ) * (sg.length : ℚ)))),
   sg.vmin, sg.vmax)

/-- A finalized-window record, mirroring the row assembled in `Capture.stop`
(ISO timestamp strings, which are wall-clock values, are not modelled).
`fedIds` is ghost instrumentation: the sample ids that were fed to the
running accumulator for this window. -/
structure Record where
  timeStart : ℕ
  timeEnd : ℕ
  curMean : Option ℚ
  curMin : Option ℚ
  curMax : Option ℚ
  volMean : Option ℚ
  volMin : Option ℚ
  volMax : Option ℚ
  powMean : Option ℚ
  powMin : Option ℚ
  powMax : Option ℚ
  charge : ℚ
  chargeAh : ℚ
  energy : ℚ
  energyWh : ℚ
  fedIds : List ℕ
deriving DecidableEq, Repr

/-- Ghost event log entries: ranges handed to the start/end detection
functions by `Capture.__call__`, and emitted records (`fl = true` for a
record produced by the flush path, i.e. `stop` with `end_id=None`). -/
inductive Event
  | searchStart (lo hi : ℕ)
  | searchEnd (lo hi : ℕ)
  | emitRec (ts te : ℕ) (fl : Bool)
deriving DecidableEq, Repr

/-- The mutable state of a `Capture` object (file handles, argument records
and the device are not part of the state machine).  `ignored`, `fedIds` and
`events` are ghost instrumentation. -/
structure CState where
  count : ℕ := 0
  triggered : Bool := false
  sampleIdLast : Option ℕ := none
  timeStart : Option ℕ := none
  timeEnd : Option ℕ := none
  cur : Signal := {}
  vol : Signal := {}
  pow : Signal := {}
  charge : ℤ := 0
  energy : ℤ := 0
  ignored : ℕ := 0
  fedIds : List ℕ := []
  records : List Record := []
  events : List Event := []
deriving DecidableEq, Repr

/-- `Capture.stop(end_id)`: when a window is open, finalize it into a record
(`end_id = self._sample_id_last` when called with `None`) and close it;
otherwise do nothing.  The source's unreachable `None`/`None` corner
(`stop(None)` before any batch) is collapsed to id 0 by `getD`. -/
def Capture.stop (st : CState) (endId? : Option ℕ) : CState :=
  if st.triggered = false then st
  else
    let endId : ℕ := match endId? with
      | some i => i
      | none => st.sampleIdLast.getD 0
    let c := st.cur.result
    let v := st.vol.result
    let p := st.pow.result
    let charge : ℚ := (st.charge : ℚ) / (GAIN : ℚ)
    let energy : ℚ := (st.energy : ℚ) / (GAIN : ℚ)
    let r : Record :=
      { timeStart := st.timeStart.getD 0
        timeEnd := endId
        curMean := c.1, curMin := c.2.1, curMax := c.2.2
        volMean := v.1, volMin := v.2.1, volMax := v.2.2
        powMean := p.1, powMin := p.2.1, powMax := p.2.2
        charge := charge, chargeAh := charge / 3600
        energy := energy, energyWh := energy / 3600
        fedIds := st.fedIds }
    { st with count := st.count + 1
              timeEnd := some endId
              triggered := false
              records := st.records ++ [r]
              events := st.events ++ [Event.emitRec r.timeStart r.timeEnd endId?.isNone] }

/-- `Capture.start(start_id)`: defensively stop a still-open window, then
reset the running accumulator and open a window at `start_id`. -/
def Capture.start (st : CState) (startId : ℕ) : CState :=
  let st := if st.triggered = true then Capture.stop st none else st
  { st with timeStart := some startId
            cur := {}, vol := {}, pow := {}
            charge := 0, energy := 0
            fedIds := []
            triggered := true }

/-- `Capture._add(stream_buffer, start_id, end_id)`: fetch `[s, e)`, keep the
samples whose current value is finite (`finite_idx = np.isfinite(i_all)`),
report the number dropped, and feed the kept currents/voltages/powers into
the running statistics and charge/energy integrals. -/
def Capture.add (stream : SStream) (cfg : Config) (st : CState) (s e : ℕ) : CState :=
  let ids := List.range' s (e - s)
  let fin := ids.filter (fun k => (stream k).curFinite)
  let i := fin.map (fun k => (stream k).cur)
  let v := fin.map (fun k => (stream k).vol)
  let p := fin.map (fun k => (stream k).pow)
  let st := { st with ignored := st.ignored + (ids.length - fin.length) }
  if i.length = 0 then st
  else
    let period : ℚ := 1 / cfg.freq
    { st with cur := st.cur.add i
              vol := st.vol.add v
              pow := st.pow.add p
              charge := st.charge + pyInt (i.sum * period * (GAIN : ℚ))
              energy := st.energy + pyInt (p.sum * period * (GAIN : ℚ))
              fedIds := st.fedIds ++ fin }

/-- Dispatch of `self._start_fn` (`_start_none` ... `_start_duration`).
`_start_duration` first initializes `self._time_end` to the current search
position when it is still unset, so it returns an updated state. -/
def startFn (stream : SStream) (cfg : Config) (st : CState) (s e : ℕ) :
    Option ℕ × CState :=
  match cfg.startKind with
  | .tnone => (some s, st)
  | .tlow => (inLevelLow stream cfg.startSignal s e, st)
  | .thigh => (inLevelHigh stream cfg.startSignal s e, st)
  | .trising => (inEdgeRising stream cfg.startSignal s e, st)
  | .tfalling => (inEdgeFalling stream cfg.startSignal s e, st)
  | .tduration =>
      let st := if st.timeEnd = none then { st with timeEnd := some s } else st
      let d : ℤ := pyInt (cfg.startDuration * cfg.freq) + (st.timeEnd.getD s : ℤ)
      (if d < (e : ℤ) then some d.toNat else none, st)

/-- Dispatch of `self._end_fn` (`_end_none` ... `_end_duration`).
`_end_duration` measures from `self._time_start[0]`; it is only invoked
while a window is open, so `timeStart` is set (`getD 0` covers the
unreachable unset case). -/
def endFn (stream : SStream) (cfg : Config) (st : CState) (s e : ℕ) : Option ℕ :=
  match cfg.endKind with
  | .tnone => none
  | .tlow => inLevelLow stream cfg.endSignal s e
  | .thigh => inLevelHigh stream cfg.endSignal s e
  | .trising => inEdgeRising stream cfg.endSignal s e
  | .tfalling => inEdgeFalling stream cfg.endSignal s e
  | .tduration =>
      let d : ℤ := pyInt (cfg.capDuration * cfg.freq) + (st.timeStart.getD 0 : ℤ)
      if d < (e : ℤ) then some d.toNat else none

/-- The `while start_id < end_id` loop body of `Capture.__call__`, as a
fuel-bounded recursion over the current search position `s`.  The boolean
result is the function's return value (`True` when the configured window
count has been reached).  Note two faithful details of the source: the count
check happens before `self._sample_id_last = start_id`, so an early `True`
return leaves `sampleIdLast` at its previous value; and after the loop
`self._sample_id_last = end_id` runs unconditionally. -/
def loop (stream : SStream) (cfg : Config) (e : ℕ) : ℕ → CState → ℕ → CState × Bool
  | _, st, 0 => (st, false)
  | s, st, fuel + 1 =>
    let next : ℕ → CState → CState × Bool := fun s' st' =>
      if cfg.countMax ≠ 0 ∧ cfg.countMax ≤ st'.count then (st', true)
      else loop stream cfg e s' { st' with sampleIdLast := some s' } fuel
    if s < e then
      if st.triggered = false then
        let st := { st with events := st.events ++ [Event.searchStart s e] }
        match startFn stream cfg st s e with
        | (none, st) => next e st
        | (some t, st) => next (t + 1) (Capture.start st t)
      else
        let st := { st with events := st.events ++ [Event.searchEnd s e] }
        match endFn stream cfg st s e with
        | none => next e (Capture.add stream cfg st s e)
        | some t =>
            let st := if s + 2 < t then Capture.add stream cfg st s (t - 1) else st
            next (t + 1) (Capture.stop st (some t))
    else ({ st with sampleIdLast := some e }, false)

/-- `Capture.__call__(stream_buffer)`: clamp the available range's start to
`self._sample_id_last`, return `False` when nothing is to process, otherwise
run the processing loop.  (The `gpi` prefetch at the top of the source
method is unused by the logic and not modelled.) -/
def processBatch (stream : SStream) (cfg : Config) (st : CState)
    (bufLo bufHi fuel : ℕ) : CState × Bool :=
  let s : ℕ := match st.sampleIdLast with
    | some l => if bufLo < l then l else bufLo
    | none => bufLo
  if bufHi ≤ s then (st, false)
  else loop stream cfg bufHi s st fuel

/-- `Capture.close`: flush a still-open window (CSV file handling is an
external side effect and not modelled). -/
def Capture.close (st : CState) : CState := Capture.stop st none

/-- One interaction of the caller with the capture object: deliver a new
available buffer range, or invoke the explicit flush/stop path. -/
inductive Op
  | batch (lo hi : ℕ)
  | flush
deriving DecidableEq, Repr

/-- Drive a `Capture` through a list of interactions, mirroring the polling
loop of `run()`: when `__call__` returns `True` the loop breaks and
`capture.close()` runs. -/
def runOps (stream : SStream) (cfg : Config) (fuel : ℕ) : CState → List Op → CState
  | st, [] => st
  | st, Op.flush :: rest => runOps stream cfg fuel (Capture.close st) rest
  | st, Op.batch lo hi :: rest =>
      match processBatch stream cfg st lo hi fuel with
      | (st', true) => Capture.close st'
      | (st', false) => runOps stream cfg fuel st' rest

/-- Run a capture from the freshly-constructed state. -/
def runCapture (stream : SStream) (cfg : Config) (ops : List Op) (fuel : ℕ) : CState :=
  runOps stream cfg fuel {} ops

/-- Build a stream from a list of trigger-channel bits (analog values 0,
all samples finite); ids beyond the list read as low. -/
def streamOfBits (l : List Bool) : SStream := fun i => { in0 := l.getD i false }

end Trigger

namespace Trigger

/-! Concrete runs used by the claim theorems, counterexamples and witnesses. -/

/-- Trigger-channel bits of the specification's worked example
`[0,1,1,1,0,0,1,0]`. -/
def bitsSpec : List Bool := [false, true, true, true, false, false, true, false]

/-- Configuration `--start rising --end falling` on `in0`. -/
def cfgRF : Config := { startKind := .trising, endKind := .tfalling }

/-- The worked example processed in a single batch `[0, 8)`. -/
def runSpec : CState := runCapture (streamOfBits bitsSpec) cfgRF [Op.batch 0 8] 32

/-- Trigger-channel bits `[0,1,1,0]`: one pulse whose falling pair `(2, 3)`
straddles the batch boundary at id 3. -/
def bitsPulse : List Bool := [false, true, true, false]

/-- The pulse processed in one batch `[0, 4)`. -/
def runPulseWhole : CState := runCapture (streamOfBits bitsPulse) cfgRF [Op.batch 0 4] 32

/-- The pulse processed in two batches: first `[0, 3)`, then the buffer
grown to `[0, 4)` (the call clamps its start to `sampleIdLast = 3`). -/
def runPulseSplit : CState :=
  runCapture (streamOfBits bitsPulse) cfgRF [Op.batch 0 3, Op.batch 0 4] 32

unseal Rat.mul Rat.add Rat.sub Rat.inv

/-- C1: the process-batch operation is not batch-invariant.  The whole-range
run detects the falling edge between samples 2 and 3 and emits one record;
the split run, resuming at the boundary id 3, fetches only `[3, 4)`, finds
no falling difference, emits nothing, and leaves the window open. -/
theorem c1_boundary_edge_lost :
    runPulseWhole.records.map (fun r => (r.timeStart, r.timeEnd)) = [(0, 2)] ∧
    runPulseSplit.records = [] ∧
    runPulseSplit.triggered = true := by decide

/-- C2 counterexample: on the stream `[0,1,1,1,0,0,1,0]` with start=rising
and end=falling the machine does not open windows at 1 and 6 with the first
closing at 4 and the second left open; the actual run refutes that trace. -/
theorem c2_claimed_trace_false :
    ¬ (runSpec.records.map (fun r => (r.timeStart, r.timeEnd)) = [(1, 4)] ∧
       runSpec.triggered = true) := by decide

/-- C2 amended: the actual trace on `[0,1,1,1,0,0,1,0]`: exactly two windows
are emitted, `[0, 3)` and `[5, 6)`, and no window is open at stream end. -/
theorem c2_actual_trace :
    runSpec.records.map (fun r => (r.timeStart, r.timeEnd)) = [(0, 3), (5, 6)] ∧
    runSpec.triggered = false := by decide

/-- C3 counterexample: it is not the case that every sample of `[i, j)` is
fed to the accumulator of an emitted window `[i, j)`: in the worked run the
window `[0, 3)` is emitted with an empty fed set. -/
theorem c3_not_all_window_samples_fed :
    ¬ (∀ r ∈ runSpec.records, ∀ k, r.timeStart ≤ k → k < r.timeEnd → k ∈ r.fedIds) := by
  decide

end Trigger

namespace Trigger

unseal Rat.mul Rat.add Rat.sub Rat.inv

/-- Configuration `--start none --end duration` with `capture_duration = 0`. -/
def cfgDur0 : Config := { startKind := .tnone, endKind := .tduration, capDuration := 0 }

/-- A run of `cfgDur0` over one batch `[0, 4)`. -/
def runDur0 : CState := runCapture (streamOfBits []) cfgDur0 [Op.batch 0 4] 32

/-- C4 counterexample: with a duration end condition whose rounded sample
count is 0, the machine emits zero-length windows (`end_id = start_id`). -/
theorem c4_zero_length_window :
    ¬ (∀ r ∈ runDur0.records, r.timeStart < r.timeEnd) := by decide

/-- A state with a window open at sample 0 and one processed sample. -/
def stOpen0 : CState := { triggered := true, timeStart := some 0, sampleIdLast := some 1 }

/-- Configuration `--end duration` with `capture_duration = 1.5` seconds at a
sampling frequency of 1 Hz. -/
def cfgDur32 : Config := { endKind := .tduration, capDuration := 3 / 2 }

/-- C6 counterexample: with `capture_duration × frequency = 1.5` and the
reference index 0, the end condition fires at index `int(1.5) = 1` as soon
as the available end reaches 2, whereas the claim (`round(1.5) = 2`) puts
the trigger at index 2 and forbids firing before the end passes 2. -/
theorem c6_counterexample :
    endFn (streamOfBits []) cfgDur32 stOpen0 1 2 = some 1 ∧
    round ((3 : ℚ) / 2 * 1) = 2 ∧ (1 : ℤ) ≠ 0 + 2 := by
  refine ⟨by decide, ?_, by decide⟩
  rw [round_eq]
  norm_num

/-- Configuration `--start high --end high` on `in0`. -/
def cfgHH : Config := { startKind := .thigh, endKind := .thigh }

/-- The pulse `[0,1,1,0]` processed with `cfgHH` in one batch. -/
def runHH : CState := runCapture (streamOfBits bitsPulse) cfgHH [Op.batch 0 4] 32

/-- C7 counterexample: the end condition fires at `j = 2` (a high sample) and
the window `[1, 2)` is emitted, but the next start search is `[3, 4)`: the
end-trigger sample 2 is skipped, so no second window opens even though
sample 2 satisfies the start condition; the claim would have sample 2
searched (`3 ≤ 2` fails). -/
theorem c7_counterexample :
    runHH.records.map (fun r => (r.timeStart, r.timeEnd)) = [(1, 2)] ∧
    ((streamOfBits bitsPulse) 2).chan Chan.in0 = true ∧
    runHH.events.drop 3 = [Event.searchStart 3 4] ∧
    runHH.triggered = false ∧
    ¬ ((3 : ℕ) ≤ 2 ∧ 2 < 4) := by decide

/-- A stream whose sample 0 has a finite current but a non-finite (NaN)
voltage value. -/
def streamNanVol : SStream :=
  fun i => if i = 0 then { cur := 1, vol := 2, volFinite := false } else {}

/-- C8 counterexample: a sample with finite current and non-finite voltage is
not excluded: `Capture._add` feeds it to the accumulator (its id enters the
fed set and the voltage statistics count it). -/
theorem c8_counterexample :
    (streamNanVol 0).volFinite = false ∧
    (Capture.add streamNanVol {} {} 0 1).fedIds = [0] ∧
    (Capture.add streamNanVol {} {} 0 1).vol.length = 1 := by decide

/-- C8 amended: the `np.isfinite` filter of `Capture._add` consults only the
current channel: the samples fed (and those counted as ignored) are exactly
determined by current finiteness, voltage finiteness notwithstanding. -/
theorem c8_filter_is_current_only (stream : SStream) (cfg : Config) (st : CState) (s e : ℕ) :
    (Capture.add stream cfg st s e).fedIds
      = st.fedIds ++ (List.range' s (e - s)).filter (fun k => (stream k).curFinite) ∧
    (Capture.add stream cfg st s e).ignored
      = st.ignored +
        ((e - s) - ((List.range' s (e - s)).filter (fun k => (stream k).curFinite)).length) ∧
    (Capture.add stream cfg st s e).vol.length
      = st.vol.length + ((List.range' s (e - s)).filter (fun k => (stream k).curFinite)).length := by
  unfold Capture.add
  simp only [List.length_map]
  split
  case isTrue h =>
    rw [List.length_eq_zero] at h
    simp [h]
  case isFalse h =>
    simp [Signal.add, List.length_range']

end Trigger

namespace Trigger

unseal Rat.mul Rat.add Rat.sub Rat.inv

/-- Length of a fetched digital range. -/
theorem samplesGet_length (st : SStream) (c : Chan) (s e : ℕ) :
    (samplesGet st c s e).length = e - s := by
  simp [samplesGet]

/-- Bounds of a level-low trigger index. -/
theorem inLevelLow_bounds {st : SStream} {c : Chan} {s e j : ℕ}
    (h : inLevelLow st c s e = some j) (hse : s < e) : s ≤ j ∧ j < e := by
  simp only [inLevelLow] at h
  split at h
  · exact absurd h (by simp)
  case isFalse hall =>
    obtain rfl : s + _ = j := Option.some_injective _ h
    refine ⟨Nat.le_add_right _ _, ?_⟩
    have hex : ∃ x ∈ samplesGet st c s e, (fun b => decide (b = false)) x := by
      rw [List.all_eq_true] at hall
      push_neg at hall
      obtain ⟨x, hx, hpx⟩ := hall
      exact ⟨x, hx, by simp [Bool.eq_false_iff.mpr hpx]⟩
    have := List.findIdx_lt_length_of_exists hex
    rw [samplesGet_length] at this
    omega

/-- Bounds of a level-high trigger index. -/
theorem inLevelHigh_bounds {st : SStream} {c : Chan} {s e j : ℕ}
    (h : inLevelHigh st c s e = some j) (hse : s < e) : s ≤ j ∧ j < e := by
  simp only [inLevelHigh] at h
  split at h
  case isTrue hany =>
    obtain rfl : s + _ = j := Option.some_injective _ h
    refine ⟨Nat.le_add_right _ _, ?_⟩
    rw [List.any_eq_true] at hany
    obtain ⟨x, hx, hpx⟩ := hany
    have := List.findIdx_lt_length_of_exists (p := fun b => b) ⟨x, hx, hpx⟩
    rw [samplesGet_length] at this
    omega
  · exact absurd h (by simp)

/-- Bounds of a rising-edge trigger index. -/
theorem inEdgeRising_bounds {st : SStream} {c : Chan} {s e j : ℕ}
    (h : inEdgeRising st c s e = some j) (hse : s < e) : s ≤ j ∧ j < e := by
  simp only [inEdgeRising] at h
  split at h
  case isTrue hh => exact ⟨le_of_eq (Option.some_injective _ h),
    by obtain rfl := Option.some_injective _ h; omega⟩
  case isFalse hh =>
    split at h
    case isTrue hany =>
      obtain rfl : s + _ = j := Option.some_injective _ h
      refine ⟨Nat.le_add_right _ _, ?_⟩
      rw [List.any_eq_true] at hany
      obtain ⟨x, hx, hpx⟩ := hany
      have hlt := List.findIdx_lt_length_of_exists (p := fun x => decide (1 ≤ x)) ⟨x, hx, hpx⟩
      have hlen : (npDiff ((samplesGet st c s e).map bint)).length
          = (e - s) - 1 := by
        simp [npDiff, List.length_zip, samplesGet_length]
      omega
    · exact absurd h (by simp)

/-- Bounds of a falling-edge trigger index. -/
theorem inEdgeFalling_bounds {st : SStream} {c : Chan} {s e j : ℕ}
    (h : inEdgeFalling st c s e = some j) (hse : s < e) : s ≤ j ∧ j < e := by
  simp only [inEdgeFalling] at h
  split at h
  case isTrue hh => exact ⟨le_of_eq (Option.some_injective _ h),
    by obtain rfl := Option.some_injective _ h; omega⟩
  case isFalse hh =>
    split at h
    case isTrue hany =>
      obtain rfl : s + _ = j := Option.some_injective _ h
      refine ⟨Nat.le_add_right _ _, ?_⟩
      rw [List.any_eq_true] at hany
      obtain ⟨x, hx, hpx⟩ := hany
      have hlt := List.findIdx_lt_length_of_exists (p := fun x => decide (x ≤ -1)) ⟨x, hx, hpx⟩
      have hlen : (npDiff ((samplesGet st c s e).map bint)).length
          = (e - s) - 1 := by
        simp [npDiff, List.length_zip, samplesGet_length]
      omega
    · exact absurd h (by simp)

end Trigger

namespace Trigger

unseal Rat.mul Rat.add Rat.sub Rat.inv

/-- A fired start trigger lies below the end of the searched range. -/
theorem startFn_lt {stream : SStream} {cfg : Config} {st st' : CState} {s e t : ℕ}
    (h : startFn stream cfg st s e = (some t, st')) (hse : s < e) : t < e := by
  unfold startFn at h
  cases hk : cfg.startKind <;> rw [hk] at h
  case tnone => cases h; omega
  case tlow =>
    have := inLevelLow_bounds (congrArg Prod.fst h) hse
    omega
  case thigh =>
    have := inLevelHigh_bounds (congrArg Prod.fst h) hse
    omega
  case trising =>
    have := inEdgeRising_bounds (congrArg Prod.fst h) hse
    omega
  case tfalling =>
    have := inEdgeFalling_bounds (congrArg Prod.fst h) hse
    omega
  case tduration =>
    have h1 := congrArg Prod.fst h
    simp only at h1
    split at h1 <;> split at h1 <;>
      first
        | exact Option.noConfusion h1
        | (have ht := Option.some_injective _ h1; omega)

/-- A fired channel-based (non-duration) end trigger lies at or after the
start of the searched range. -/
theorem endFn_ge {stream : SStream} {cfg : Config} {st : CState} {s e j : ℕ}
    (h : endFn stream cfg st s e = some j) (hse : s < e)
    (hk : cfg.endKind ≠ TrigKind.tduration) : s ≤ j := by
  unfold endFn at h
  cases hkk : cfg.endKind <;> rw [hkk] at h
  case tnone => exact absurd h (by simp)
  case tlow => exact (inLevelLow_bounds h hse).1
  case thigh => exact (inLevelHigh_bounds h hse).1
  case trising => exact (inEdgeRising_bounds h hse).1
  case tfalling => exact (inEdgeFalling_bounds h hse).1
  case tduration => exact absurd hkk hk

/-- A fired duration end trigger is the window start plus the truncated
sample count. -/
theorem endFn_duration {stream : SStream} {cfg : Config} {st : CState} {s e j t : ℕ}
    (h : endFn stream cfg st s e = some j) (hk : cfg.endKind = TrigKind.tduration)
    (hts : st.timeStart = some t) :
    (j : ℤ) = (t : ℤ) + pyInt (cfg.capDuration * cfg.freq) ∨
      ((t : ℤ) + pyInt (cfg.capDuration * cfg.freq) < 0 ∧ j = 0) := by
  unfold endFn at h
  rw [hk, hts] at h
  simp only [Option.getD_some] at h
  split at h
  case isTrue hlt =>
    obtain rfl := Option.some_injective _ h
    omega
  case isFalse => exact absurd h (by simp)

/-- Python truncation agrees with the floor on nonnegative rationals. -/
theorem pyInt_eq_floor (q : ℚ) (hq : 0 ≤ q) : pyInt q = ⌊q⌋ := by
  rw [Rat.floor_def, pyInt]
  exact Int.tdiv_eq_ediv (Rat.num_nonneg.mpr hq) (Int.natCast_nonneg _)

end Trigger

namespace Trigger

unseal Rat.mul Rat.add Rat.sub Rat.inv

/-- C5: flushing via the explicit close path emits exactly one additional
record when and only when a window is open, its end id being the machine's
last-observed sample position `sampleIdLast`; flushing with no open window
changes nothing, and a repeated flush never duplicates a record. -/
theorem c5_flush_exactly_one (st : CState) (l : ℕ) (h : st.sampleIdLast = some l) :
    (st.triggered = true →
      ∃ r, (Capture.close st).records = st.records ++ [r] ∧ r.timeEnd = l ∧
        (Capture.close st).triggered = false) ∧
    (st.triggered = false → Capture.close st = st) ∧
    (Capture.close (Capture.close st)).records = (Capture.close st).records := by
  refine ⟨?_, ?_, ?_⟩
  · intro ht
    unfold Capture.close Capture.stop
    split
    case isTrue hf => rw [ht] at hf; exact absurd hf (by simp)
    case isFalse => exact ⟨_, rfl, by simp [h], rfl⟩
  · intro ht
    simp [Capture.close, Capture.stop, ht]
  · cases ht : st.triggered
    · simp [Capture.close, Capture.stop, ht]
    · simp [Capture.close, Capture.stop, ht]

/-- C6 amended: a duration condition fires exactly when the available end of
the stream exceeds the reference index plus the truncated
(`int()`, i.e. floor for nonnegative values) product `duration × frequency`,
and the returned trigger index is that sum; `round` plays no part. -/
theorem c6_duration_fires_at_truncation (stream : SStream) (cfg : Config) (st : CState)
    (s e t : ℕ) :
    (cfg.endKind = TrigKind.tduration → st.timeStart = some t →
      0 ≤ cfg.capDuration * cfg.freq →
      endFn stream cfg st s e =
        if (t : ℤ) + ⌊cfg.capDuration * cfg.freq⌋ < (e : ℤ)
        then some ((t : ℤ) + ⌊cfg.capDuration * cfg.freq⌋).toNat else none) ∧
    (cfg.startKind = TrigKind.tduration → st.timeEnd = some t →
      0 ≤ cfg.startDuration * cfg.freq →
      (startFn stream cfg st s e).1 =
        if (t : ℤ) + ⌊cfg.startDuration * cfg.freq⌋ < (e : ℤ)
        then some ((t : ℤ) + ⌊cfg.startDuration * cfg.freq⌋).toNat else none) := by
  constructor
  · intro hk hts hq
    unfold endFn
    rw [hk, hts]
    simp only [Option.getD_some]
    rw [pyInt_eq_floor _ hq]
    simp [Int.add_comm]
  · intro hk hte hq
    unfold startFn
    rw [hk]
    rw [if_neg (show ¬ (st.timeEnd = none) by simp [hte])]
    dsimp only
    rw [hte]
    simp only [Option.getD_some]
    rw [pyInt_eq_floor _ hq]
    simp [Int.add_comm]

end Trigger

namespace Trigger

unseal Rat.mul Rat.add Rat.sub Rat.inv

/-- C5 witness at the split-run state, whose window is still open. -/
theorem c5_flush_exactly_one_witness :
    runPulseSplit.sampleIdLast = some 4 ∧
    ((runPulseSplit.triggered = true →
      ∃ r, (Capture.close runPulseSplit).records = runPulseSplit.records ++ [r] ∧
        r.timeEnd = 4 ∧ (Capture.close runPulseSplit).triggered = false) ∧
    (runPulseSplit.triggered = false → Capture.close runPulseSplit = runPulseSplit) ∧
    (Capture.close (Capture.close runPulseSplit)).records
      = (Capture.close runPulseSplit).records) :=
  ⟨by decide, c5_flush_exactly_one runPulseSplit 4 (by decide)⟩

/-- C6 witness: concrete evaluation of the duration end condition through the
amended theorem. -/
theorem c6_duration_fires_at_truncation_witness :
    cfgDur32.endKind = TrigKind.tduration ∧ stOpen0.timeStart = some 0 ∧
    0 ≤ cfgDur32.capDuration * cfgDur32.freq ∧
    endFn (streamOfBits []) cfgDur32 stOpen0 1 3 =
      (if ((0 : ℕ) : ℤ) + ⌊cfgDur32.capDuration * cfgDur32.freq⌋ < ((3 : ℕ) : ℤ)
       then some (((0 : ℕ) : ℤ) + ⌊cfgDur32.capDuration * cfgDur32.freq⌋).toNat
       else none) :=
  ⟨rfl, rfl, by norm_num [cfgDur32],
    (c6_duration_fires_at_truncation (streamOfBits []) cfgDur32 stOpen0 1 3 0).1
      rfl rfl (by norm_num [cfgDur32])⟩

/-- An accumulator with an empty fed set is in its reset state. -/
def AccEmpty (st : CState) : Prop :=
  st.fedIds = [] →
    st.cur = {} ∧ st.vol = {} ∧ st.pow = {} ∧ st.charge = 0 ∧ st.energy = 0

/-- A record produced from an empty accumulator: every statistics field is
`None` and the integrals are zero. -/
def RecNAN (r : Record) : Prop :=
  r.curMean = none ∧ r.curMin = none ∧ r.curMax = none ∧
  r.volMean = none ∧ r.volMin = none ∧ r.volMax = none ∧
  r.powMean = none ∧ r.powMin = none ∧ r.powMax = none ∧
  r.charge = 0 ∧ r.chargeAh = 0 ∧ r.energy = 0 ∧ r.energyWh = 0

/-- All emitted records with an empty fed set are NAN records. -/
def RecsNAN (l : List Record) : Prop := ∀ r ∈ l, r.fedIds = [] → RecNAN r

/-- Invariant for the empty-window claim. -/
def AInv (st : CState) : Prop := AccEmpty st ∧ RecsNAN st.records

/-- `stop` preserves the empty-window invariant. -/
theorem AInv_stop (st : CState) (e? : Option ℕ) (h : AInv st) :
    AInv (Capture.stop st e?) := by
  unfold Capture.stop
  split
  · exact h
  case isFalse ht =>
    obtain ⟨ha, hr⟩ := h
    refine ⟨fun hf => ha hf, ?_⟩
    intro r hmem hfed
    rw [List.mem_append] at hmem
    rcases hmem with hmem | hmem
    · exact hr r hmem hfed
    · rw [List.mem_singleton] at hmem
      subst hmem
      obtain ⟨h1, h2, h3, h4, h5⟩ := ha hfed
      simp [RecNAN, Signal.result, h1, h2, h3, h4, h5]

/-- `start` preserves the empty-window invariant (and resets the
accumulator). -/
theorem AInv_start (st : CState) (t : ℕ) (h : AInv st) :
    AInv (Capture.start st t) := by
  unfold Capture.start
  have h' : AInv (if st.triggered = true then Capture.stop st none else st) := by
    split
    · exact AInv_stop _ _ h
    · exact h
  exact ⟨fun _ => ⟨rfl, rfl, rfl, rfl, rfl⟩, h'.2⟩

/-- `_add` preserves the empty-window invariant. -/
theorem AInv_add (stream : SStream) (cfg : Config) (st : CState) (s e : ℕ)
    (h : AInv st) : AInv (Capture.add stream cfg st s e) := by
  unfold Capture.add
  dsimp only
  split
  case isTrue hlen => exact ⟨fun hf => h.1 hf, h.2⟩
  case isFalse hlen =>
    refine ⟨?_, h.2⟩
    intro hfed
    rw [List.append_eq_nil] at hfed
    rw [List.length_map, hfed.2] at hlen
    exact absurd rfl hlen

/-- The empty-window invariant only reads the accumulator fields and the
records, so it transfers across state updates that keep those fields. -/
theorem AInv_mk {st st' : CState} (h : AInv st)
    (h1 : st'.fedIds = st.fedIds) (h2 : st'.cur = st.cur) (h3 : st'.vol = st.vol)
    (h4 : st'.pow = st.pow) (h5 : st'.charge = st.charge) (h6 : st'.energy = st.energy)
    (h7 : st'.records = st.records) : AInv st' := by
  obtain ⟨ha, hr⟩ := h
  refine ⟨?_, ?_⟩
  · intro hf
    rw [h1] at hf
    rw [h2, h3, h4, h5, h6]
    exact ha hf
  · rw [h7]
    exact hr

/-- The second component returned by `startFn` is the input state, possibly
with `timeEnd` initialized. -/
theorem startFn_snd (stream : SStream) (cfg : Config) (st : CState) (s e : ℕ) :
    (startFn stream cfg st s e).2 = st ∨
    (startFn stream cfg st s e).2 = { st with timeEnd := some s } := by
  unfold startFn
  cases cfg.startKind <;> dsimp only
  case tduration =>
    split
    · right; rfl
    · left; rfl
  all_goals (left; rfl)

/-- The processing loop preserves the empty-window invariant. -/
theorem AInv_loop (stream : SStream) (cfg : Config) (e : ℕ) :
    ∀ fuel s st, AInv st → AInv (loop stream cfg e s st fuel).1 := by
  intro fuel
  induction fuel with
  | zero => intro s st h; exact h
  | succ fuel ih =>
    intro s st h
    rw [loop]
    dsimp only
    split
    case isTrue hse =>
      split
      case isTrue htr =>
        rcases hsf : startFn stream cfg
            { st with events := st.events ++ [Event.searchStart s e] } s e with ⟨t?, st2⟩
        have h2 : AInv st2 := by
          have hin : AInv { st with events := st.events ++ [Event.searchStart s e] } :=
            AInv_mk h rfl rfl rfl rfl rfl rfl rfl
          have hd := startFn_snd stream cfg
            { st with events := st.events ++ [Event.searchStart s e] } s e
          rw [hsf] at hd
          dsimp only at hd
          rcases hd with hd | hd <;> rw [hd]
          · exact hin
          · exact AInv_mk hin rfl rfl rfl rfl rfl rfl rfl
        rcases t? with _ | t
        · dsimp only
          split
          · exact h2
          · exact ih _ _ (AInv_mk h2 rfl rfl rfl rfl rfl rfl rfl)
        · dsimp only
          have h3 := AInv_start st2 t h2
          split
          · exact h3
          · exact ih _ _ (AInv_mk h3 rfl rfl rfl rfl rfl rfl rfl)
      case isFalse htr =>
        rcases hef : endFn stream cfg
            { st with events := st.events ++ [Event.searchEnd s e] } s e with _ | t
        · dsimp only
          have h3 := AInv_add stream cfg
            { st with events := st.events ++ [Event.searchEnd s e] } s e
            (AInv_mk h rfl rfl rfl rfl rfl rfl rfl)
          split
          · exact h3
          · exact ih _ _ (AInv_mk h3 rfl rfl rfl rfl rfl rfl rfl)
        · dsimp only
          split
          case isTrue hadd =>
            have h3 : AInv (Capture.stop
                (Capture.add stream cfg
                  { st with events := st.events ++ [Event.searchEnd s e] } s (t - 1))
                (some t)) :=
              AInv_stop _ _ (AInv_add _ _ _ _ _ (AInv_mk h rfl rfl rfl rfl rfl rfl rfl))
            split
            · exact h3
            · exact ih _ _ (AInv_mk h3 rfl rfl rfl rfl rfl rfl rfl)
          case isFalse hadd =>
            have h3 : AInv (Capture.stop
                { st with events := st.events ++ [Event.searchEnd s e] } (some t)) :=
              AInv_stop _ _ (AInv_mk h rfl rfl rfl rfl rfl rfl rfl)
            split
            · exact h3
            · exact ih _ _ (AInv_mk h3 rfl rfl rfl rfl rfl rfl rfl)
    case isFalse hse => exact AInv_mk h rfl rfl rfl rfl rfl rfl rfl

end Trigger

namespace Trigger

unseal Rat.mul Rat.add Rat.sub Rat.inv

/-- Rendering of one statistics field of the CSV/console row assembled in
`Capture.stop`: a `None` value is rendered as the literal string `"NAN"`;
the numeric `'%g'` formatting is abstracted as the rational's `num/den`
form (no claim depends on it). -/
def renderOpt : Option ℚ → String
  | none => "NAN"
  | some q => toString q.num ++ "/" ++ toString q.den

/-- `__call__` preserves the empty-window invariant. -/
theorem AInv_processBatch (stream : SStream) (cfg : Config) (st : CState)
    (lo hi fuel : ℕ) (h : AInv st) :
    AInv (processBatch stream cfg st lo hi fuel).1 := by
  unfold processBatch
  dsimp only
  split
  · exact h
  · exact AInv_loop _ _ _ _ _ _ h

/-- Whole runs preserve the empty-window invariant. -/
theorem AInv_runOps (stream : SStream) (cfg : Config) (fuel : ℕ) :
    ∀ ops st, AInv st → AInv (runOps stream cfg fuel st ops) := by
  intro ops
  induction ops with
  | nil => intro st h; exact h
  | cons op rest ih =>
    intro st h
    cases op with
    | flush =>
      rw [runOps]
      exact ih _ (AInv_stop _ _ h)
    | batch lo hi =>
      rw [runOps]
      rcases hp : processBatch stream cfg st lo hi fuel with ⟨st', done⟩
      have h' : AInv st' := by
        have := AInv_processBatch stream cfg st lo hi fuel h
        rw [hp] at this
        exact this
      cases done
      · exact ih _ h'
      · exact AInv_stop _ _ h'

/-- C10: a record emitted for a window into which no finite sample was ever
fed carries `None` statistics, rendered as the literal string `"NAN"` for
all nine mean/min/max fields, and exactly zero charge and energy; finalizing
such a window is total (no division by zero: the zero-length mean is the
guarded `None` branch of `Signal.result`). -/
theorem c10_empty_window_record (stream : SStream) (cfg : Config) (ops : List Op)
    (fuel : ℕ) (r : Record) (hr : r ∈ (runCapture stream cfg ops fuel).records)
    (hfed : r.fedIds = []) :
    renderOpt r.curMean = "NAN" ∧ renderOpt r.curMin = "NAN" ∧
    renderOpt r.curMax = "NAN" ∧ renderOpt r.volMean = "NAN" ∧
    renderOpt r.volMin = "NAN" ∧ renderOpt r.volMax = "NAN" ∧
    renderOpt r.powMean = "NAN" ∧ renderOpt r.powMin = "NAN" ∧
    renderOpt r.powMax = "NAN" ∧
    r.charge = 0 ∧ r.chargeAh = 0 ∧ r.energy = 0 ∧ r.energyWh = 0 := by
  have h0 : AInv ({} : CState) := by
    constructor
    · intro _
      exact ⟨rfl, rfl, rfl, rfl, rfl⟩
    · intro r h
      exact absurd h (List.not_mem_nil r)
  have := (AInv_runOps stream cfg fuel ops {} h0).2 r hr hfed
  obtain ⟨h1, h2, h3, h4, h5, h6, h7, h8, h9, h10, h11, h12, h13⟩ := this
  rw [h1, h2, h3, h4, h5, h6, h7, h8, h9, h10, h11, h12, h13]
  exact ⟨rfl, rfl, rfl, rfl, rfl, rfl, rfl, rfl, rfl, rfl, rfl, rfl, rfl⟩

/-- Fallback record used with `List.getD` in witnesses. -/
def zeroRec : Record :=
  ⟨0, 0, none, none, none, none, none, none, none, none, none, 0, 0, 0, 0, []⟩

/-- C10 witness: the first record of the worked-example run is such an empty
window. -/
theorem c10_empty_window_record_witness :
    ((runSpec.records.getD 0 zeroRec) ∈ runSpec.records) ∧
    renderOpt (runSpec.records.getD 0 zeroRec).curMean = "NAN" :=
  ⟨by decide,
    (c10_empty_window_record (streamOfBits bitsSpec) cfgRF [Op.batch 0 8] 32 _
      (by decide) (by decide)).1⟩

end Trigger

namespace Trigger

unseal Rat.mul Rat.add Rat.sub Rat.inv

/-- Stopping with no open window is a no-op. -/
theorem stop_not_triggered {st : CState} (e? : Option ℕ) (ht : st.triggered = false) :
    Capture.stop st e? = st := by
  unfold Capture.stop
  simp [ht]

/-- Shape of `stop` on an open window: one record is appended whose start is
the recorded window start and whose end is the supplied end id (or
`sampleIdLast` on the flush path), and the window closes. -/
theorem stop_spec (st : CState) (e? : Option ℕ) (ht : st.triggered = true) :
    ∃ r : Record,
      (Capture.stop st e?).records = st.records ++ [r] ∧
      r.timeStart = st.timeStart.getD 0 ∧
      r.timeEnd = (match e? with | some i => i | none => st.sampleIdLast.getD 0) ∧
      r.fedIds = st.fedIds ∧
      (Capture.stop st e?).triggered = false ∧
      (Capture.stop st e?).count = st.count + 1 ∧
      (Capture.stop st e?).timeStart = st.timeStart ∧
      (Capture.stop st e?).sampleIdLast = st.sampleIdLast := by
  unfold Capture.stop
  split
  case isTrue hf => rw [ht] at hf; exact absurd hf (by simp)
  case isFalse => exact ⟨_, rfl, rfl, rfl, rfl, rfl, rfl, rfl, rfl⟩

/-- Shape of `start` from a closed state. -/
theorem start_spec (st : CState) (t : ℕ) (ht : st.triggered = false) :
    Capture.start st t = { st with
      timeStart := some t
      cur := {}
      vol := {}
      pow := {}
      charge := 0
      energy := 0
      fedIds := []
      triggered := true } := by
  unfold Capture.start
  rw [ht]
  simp

/-- `_add` touches only the accumulator fields. -/
theorem add_fields (stream : SStream) (cfg : Config) (st : CState) (s e : ℕ) :
    (Capture.add stream cfg st s e).triggered = st.triggered ∧
    (Capture.add stream cfg st s e).timeStart = st.timeStart ∧
    (Capture.add stream cfg st s e).count = st.count ∧
    (Capture.add stream cfg st s e).records = st.records ∧
    (Capture.add stream cfg st s e).sampleIdLast = st.sampleIdLast ∧
    (Capture.add stream cfg st s e).events = st.events := by
  unfold Capture.add
  dsimp only
  split <;> exact ⟨rfl, rfl, rfl, rfl, rfl, rfl⟩

/-- Positive-length property of a list of emitted records. -/
def RecsOK (l : List Record) : Prop := ∀ r ∈ l, r.timeStart < r.timeEnd

/-- Run-level invariant for the positive-window-length claim. -/
def BState (cfg : Config) (st : CState) : Prop :=
  (st.triggered = true →
    ∃ t l, st.timeStart = some t ∧ st.sampleIdLast = some l ∧ t < l) ∧
  (cfg.countMax ≠ 0 → st.count < cfg.countMax) ∧ RecsOK st.records

/-- Loop-level invariant for the positive-window-length claim. -/
def BLoop (cfg : Config) (s e : ℕ) (st : CState) : Prop :=
  (st.triggered = true →
    ∃ t, st.timeStart = some t ∧ t < s ∧ t < e ∧
      ∃ l, st.sampleIdLast = some l ∧ t < l) ∧
  (cfg.countMax ≠ 0 → st.count < cfg.countMax) ∧ RecsOK st.records

/-- Result invariant of one `__call__`. -/
def BOut (cfg : Config) (p : CState × Bool) : Prop :=
  (p.1.triggered = true →
    ∃ t l, p.1.timeStart = some t ∧ p.1.sampleIdLast = some l ∧ t < l) ∧
  RecsOK p.1.records ∧
  (p.2 = false → cfg.countMax ≠ 0 → p.1.count < cfg.countMax) ∧
  (p.2 = true → p.1.triggered = false)

end Trigger

namespace Trigger

unseal Rat.mul Rat.add Rat.sub Rat.inv

/-- Re-establish the loop invariant at the next search position, which the
loop stores into `sampleIdLast`. -/
theorem BLoop_step (cfg : Config) (s' e : ℕ) (X : CState)
    (h1 : X.triggered = true → ∃ t, X.timeStart = some t ∧ t < s' ∧ t < e)
    (h2 : cfg.countMax ≠ 0 → X.count < cfg.countMax)
    (h3 : RecsOK X.records) :
    BLoop cfg s' e { X with sampleIdLast := some s' } := by
  refine ⟨fun ht => ?_, h2, h3⟩
  obtain ⟨t, ha, hb, hc⟩ := h1 ht
  exact ⟨t, ha, hb, hc, s', rfl, hb⟩

/-- The processing loop preserves the positive-window-length invariant. -/
theorem BOut_loop (stream : SStream) (cfg : Config) (e : ℕ)
    (Hdur : cfg.endKind = TrigKind.tduration → 1 ≤ pyInt (cfg.capDuration * cfg.freq)) :
    ∀ fuel s st, BLoop cfg s e st → BOut cfg (loop stream cfg e s st fuel) := by
  intro fuel
  induction fuel with
  | zero =>
    intro s st h
    show BOut cfg (st, false)
    refine ⟨fun ht => ?_, h.2.2, fun _ => h.2.1, fun h' => by simp at h'⟩
    obtain ⟨t, h1, _, _, l, h4, h5⟩ := h.1 ht
    exact ⟨t, l, h1, h4, h5⟩
  | succ fuel ih =>
    intro s st h
    obtain ⟨hTrig, hCount, hRecs⟩ := h
    rw [loop]
    dsimp only
    split
    case isTrue hse =>
      split
      case isTrue htr =>
        rcases hsf : startFn stream cfg
            { st with events := st.events ++ [Event.searchStart s e] } s e with ⟨t?, st2⟩
        have hd := startFn_snd stream cfg
          { st with events := st.events ++ [Event.searchStart s e] } s e
        rw [hsf] at hd
        dsimp only at hd
        have hst2 : st2.triggered = st.triggered ∧ st2.count = st.count ∧
            st2.records = st.records ∧ st2.timeStart = st.timeStart := by
          rcases hd with hd | hd <;> rw [hd] <;> exact ⟨rfl, rfl, rfl, rfl⟩
        rcases t? with _ | t
        · dsimp only
          split
          case isTrue hchk =>
            refine ⟨fun hw => ?_, ?_, fun hf => absurd hf (by simp), fun _ => ?_⟩
            · rw [hst2.1, htr] at hw
              exact absurd hw (by simp)
            · rw [hst2.2.2.1]
              exact hRecs
            · rw [hst2.1]
              exact htr
          case isFalse hchk =>
            apply ih
            apply BLoop_step
            · intro hw
              rw [hst2.1, htr] at hw
              exact absurd hw (by simp)
            · intro hne
              rw [hst2.2.1]
              exact hCount hne
            · rw [hst2.2.2.1]
              exact hRecs
        · dsimp only
          have hs3 := start_spec st2 t (by rw [hst2.1]; exact htr)
          have hlt : t < e := startFn_lt hsf hse
          split
          case isTrue hchk =>
            obtain ⟨hne, hle⟩ := hchk
            rw [hs3] at hle
            have := hCount hne
            rw [hst2.2.1] at hle
            omega
          case isFalse hchk =>
            apply ih
            apply BLoop_step
            · intro _
              rw [hs3]
              exact ⟨t, rfl, Nat.lt_succ_self t, hlt⟩
            · intro hne
              rw [hs3]
              rw [hst2.2.1]
              exact hCount hne
            · rw [hs3]
              rw [hst2.2.2.1]
              exact hRecs
      case isFalse htr =>
        simp only [Bool.not_eq_false] at htr
        obtain ⟨tw, htw, htws, htwe, l0, hl0, htwl⟩ := hTrig htr
        rcases hef : endFn stream cfg
            { st with events := st.events ++ [Event.searchEnd s e] } s e with _ | j
        · dsimp only
          have ha := add_fields stream cfg
            { st with events := st.events ++ [Event.searchEnd s e] } s e
          split
          case isTrue hchk =>
            obtain ⟨hne, hle⟩ := hchk
            rw [ha.2.2.1] at hle
            dsimp only at hle
            have := hCount hne
            omega
          case isFalse hchk =>
            apply ih
            apply BLoop_step
            · intro _
              rw [ha.2.1]
              exact ⟨tw, htw, htwe, htwe⟩
            · intro hne
              rw [ha.2.2.1]
              exact hCount hne
            · rw [ha.2.2.2.1]
              exact hRecs
        · dsimp only
          have hj : tw < j := by
            by_cases hkd : cfg.endKind = TrigKind.tduration
            · have := endFn_duration hef hkd (show _ = some tw from htw)
              have hk1 := Hdur hkd
              omega
            · have := endFn_ge hef hse hkd
              omega
          split
          case isTrue hadd =>
            have haf := add_fields stream cfg
              { st with events := st.events ++ [Event.searchEnd s e] } s (j - 1)
            have htr5 : (Capture.add stream cfg
                { st with events := st.events ++ [Event.searchEnd s e] } s (j - 1)).triggered
                = true := by rw [haf.1]; exact htr
            obtain ⟨r, hr1, hr2, hr3, hr4, hr5, hr6, hr7, hr8⟩ :=
              stop_spec _ (some j) htr5
            have hrOK : RecsOK (Capture.stop
                (Capture.add stream cfg
                  { st with events := st.events ++ [Event.searchEnd s e] } s (j - 1))
                (some j)).records := by
              rw [hr1, haf.2.2.2.1]
              intro r' hmem
              rw [List.mem_append] at hmem
              rcases hmem with hmem | hmem
              · exact hRecs r' hmem
              · rw [List.mem_singleton] at hmem
                subst hmem
                rw [hr2, hr3, haf.2.1]
                simp [htw]
                omega
            split
            case isTrue hchk =>
              exact ⟨fun hw => absurd (hr5 ▸ hw) (by simp), hrOK,
                fun hf => absurd hf (by simp), fun _ => hr5⟩
            case isFalse hchk =>
              apply ih
              apply BLoop_step
              · intro hw
                rw [hr5] at hw
                exact absurd hw (by simp)
              · intro hne
                rw [hr6, haf.2.2.1]
                dsimp only
                rcases Nat.lt_or_ge (st.count + 1) cfg.countMax with hlt | hge
                · exact hlt
                · exfalso
                  apply hchk
                  refine ⟨hne, ?_⟩
                  rw [hr6, haf.2.2.1]
                  dsimp only
                  omega
              · exact hrOK
          case isFalse hadd =>
            have htr5 : ({ st with events := st.events ++ [Event.searchEnd s e] }
                : CState).triggered = true := htr
            obtain ⟨r, hr1, hr2, hr3, hr4, hr5, hr6, hr7, hr8⟩ :=
              stop_spec _ (some j) htr5
            have hrOK : RecsOK (Capture.stop
                { st with events := st.events ++ [Event.searchEnd s e] }
                (some j)).records := by
              rw [hr1]
              intro r' hmem
              rw [List.mem_append] at hmem
              rcases hmem with hmem | hmem
              · exact hRecs r' hmem
              · rw [List.mem_singleton] at hmem
                subst hmem
                rw [hr2, hr3]
                simp [htw]
                omega
            split
            case isTrue hchk =>
              exact ⟨fun hw => absurd (hr5 ▸ hw) (by simp), hrOK,
                fun hf => absurd hf (by simp), fun _ => hr5⟩
            case isFalse hchk =>
              apply ih
              apply BLoop_step
              · intro hw
                rw [hr5] at hw
                exact absurd hw (by simp)
              · intro hne
                rw [hr6]
                dsimp only
                rcases Nat.lt_or_ge (st.count + 1) cfg.countMax with hlt | hge
                · exact hlt
                · exfalso
                  apply hchk
                  refine ⟨hne, ?_⟩
                  rw [hr6]
                  dsimp only
                  omega
              · exact hrOK
    case isFalse hse =>
      refine ⟨fun ht => ?_, hRecs, fun _ => hCount, fun h' => by simp at h'⟩
      obtain ⟨t, h1, _, h3, _⟩ := hTrig ht
      exact ⟨t, e, h1, rfl, h3⟩

end Trigger

namespace Trigger

unseal Rat.mul Rat.add Rat.sub Rat.inv

/-- `__call__` preserves the positive-window-length invariant. -/
theorem BOut_processBatch (stream : SStream) (cfg : Config)
    (Hdur : cfg.endKind = TrigKind.tduration → 1 ≤ pyInt (cfg.capDuration * cfg.freq))
    (st : CState) (lo hi fuel : ℕ) (h : BState cfg st) :
    BOut cfg (processBatch stream cfg st lo hi fuel) := by
  obtain ⟨hT, hC, hR⟩ := h
  unfold processBatch
  rcases hsl : st.sampleIdLast with _ | l0 <;> dsimp only
  · split
    case isTrue hle => exact ⟨hT, hR, fun _ => hC, fun h' => by simp at h'⟩
    case isFalse hgt =>
      apply BOut_loop stream cfg hi Hdur
      refine ⟨fun ht => ?_, hC, hR⟩
      obtain ⟨t, l, h1, h2, h3⟩ := hT ht
      rw [hsl] at h2
      exact absurd h2 (by simp)
  · split
    case isTrue hlt =>
      split
      case isTrue hle => exact ⟨hT, hR, fun _ => hC, fun h' => by simp at h'⟩
      case isFalse hgt =>
        apply BOut_loop stream cfg hi Hdur
        refine ⟨fun ht => ?_, hC, hR⟩
        obtain ⟨t, l, h1, h2, h3⟩ := hT ht
        rw [hsl] at h2
        have hll : l0 = l := by injection h2
        subst hll
        rw [Nat.not_le] at hgt
        exact ⟨t, h1, h3, by omega, l0, hsl, h3⟩
    case isFalse hge =>
      split
      case isTrue hle => exact ⟨hT, hR, fun _ => hC, fun h' => by simp at h'⟩
      case isFalse hgt =>
        apply BOut_loop stream cfg hi Hdur
        refine ⟨fun ht => ?_, hC, hR⟩
        obtain ⟨t, l, h1, h2, h3⟩ := hT ht
        rw [hsl] at h2
        have hll : l0 = l := by injection h2
        subst hll
        rw [Nat.not_lt] at hge
        rw [Nat.not_le] at hgt
        exact ⟨t, h1, by omega, by omega, l0, hsl, h3⟩

/-- `close` keeps emitted records positive-length and leaves no open
window. -/
theorem BState_close (_cfg : Config) (st : CState)
    (hT : st.triggered = true →
      ∃ t l, st.timeStart = some t ∧ st.sampleIdLast = some l ∧ t < l)
    (hR : RecsOK st.records) :
    (Capture.close st).triggered = false ∧ RecsOK (Capture.close st).records := by
  unfold Capture.close
  cases ht : st.triggered
  · rw [stop_not_triggered none ht]
    exact ⟨ht, hR⟩
  · obtain ⟨t, l, h1, h2, h3⟩ := hT ht
    obtain ⟨r, hr1, hr2, hr3, hr4, hr5, hr6, hr7, hr8⟩ := stop_spec st none ht
    refine ⟨hr5, ?_⟩
    rw [hr1]
    intro r' hmem
    rw [List.mem_append] at hmem
    rcases hmem with hmem | hmem
    · exact hR r' hmem
    · rw [List.mem_singleton] at hmem
      subst hmem
      rw [hr2, hr3]
      simp [h1, h2]
      omega

/-- Whole runs keep emitted records positive-length, for runs in which a
flush is only ever the final operation unless no window-count limit is
configured. -/
theorem RecsOK_runOps (stream : SStream) (cfg : Config) (fuel : ℕ)
    (Hdur : cfg.endKind = TrigKind.tduration → 1 ≤ pyInt (cfg.capDuration * cfg.freq)) :
    ∀ ops st, BState cfg st →
      (cfg.countMax = 0 ∨ ∀ op ∈ ops.dropLast, op ≠ Op.flush) →
      RecsOK (runOps stream cfg fuel st ops).records := by
  intro ops
  induction ops with
  | nil => intro st h _; exact h.2.2
  | cons op rest ih =>
    intro st h hfl
    obtain ⟨hT, hC, hR⟩ := h
    cases op with
    | flush =>
      rw [runOps]
      obtain ⟨hcl1, hcl2⟩ := BState_close cfg st hT hR
      cases rest with
      | nil => exact hcl2
      | cons op2 rest2 =>
        have hz : cfg.countMax = 0 := by
          rcases hfl with hz | hfl
          · exact hz
          · exact absurd rfl (hfl Op.flush (by simp [List.dropLast_cons₂]))
        apply ih
        · exact ⟨fun hw => absurd (hcl1 ▸ hw) (by simp), fun hne => absurd hz hne, hcl2⟩
        · exact Or.inl hz
    | batch lo hi =>
      rw [runOps]
      rcases hp : processBatch stream cfg st lo hi fuel with ⟨st', done⟩
      have hB : BOut cfg (st', done) := by
        have := BOut_processBatch stream cfg Hdur st lo hi fuel ⟨hT, hC, hR⟩
        rw [hp] at this
        exact this
      cases done
      · apply ih
        · exact ⟨hB.1, hB.2.2.1 rfl, hB.2.1⟩
        · rcases hfl with hz | hfl
          · exact Or.inl hz
          · refine Or.inr ?_
            intro op2 hop2
            apply hfl
            cases rest with
            | nil => exact absurd hop2 (by simp at hop2)
            | cons op3 rest3 =>
              rw [List.dropLast_cons₂]
              exact List.mem_cons_of_mem _ hop2
      · have ht' : st'.triggered = false := hB.2.2.2 rfl
        show RecsOK (Capture.close st').records
        unfold Capture.close
        rw [stop_not_triggered none ht']
        exact hB.2.1

/-- C4 amended: every emitted record satisfies `end_id > start_id`, under any
stream, any batch sizes, and a flush-at-termination discipline, provided a
duration end condition amounts to at least one sample
(`int(capture_duration × frequency) ≥ 1`); with `int(...) = 0` the machine
does emit zero-length windows (see the counterexample). -/
theorem c4_emitted_windows_positive (stream : SStream) (cfg : Config)
    (ops : List Op) (fuel : ℕ)
    (Hdur : cfg.endKind = TrigKind.tduration → 1 ≤ pyInt (cfg.capDuration * cfg.freq))
    (Hfl : cfg.countMax = 0 ∨ ∀ op ∈ ops.dropLast, op ≠ Op.flush) :
    ∀ r ∈ (runCapture stream cfg ops fuel).records, r.timeStart < r.timeEnd := by
  have h0 : BState cfg {} := by
    refine ⟨?_, ?_, ?_⟩
    · intro hw
      simp at hw
    · intro hne
      exact Nat.pos_of_ne_zero hne
    · intro r h
      exact absurd h (List.not_mem_nil r)
  exact RecsOK_runOps stream cfg fuel Hdur ops {} h0 Hfl

/-- C4 witness: the worked-example run satisfies the amended claim. -/
theorem c4_emitted_windows_positive_witness :
    (cfgRF.endKind = TrigKind.tduration → 1 ≤ pyInt (cfgRF.capDuration * cfgRF.freq)) ∧
    ∀ r ∈ runSpec.records, r.timeStart < r.timeEnd :=
  ⟨by decide,
    c4_emitted_windows_positive (streamOfBits bitsSpec) cfgRF [Op.batch 0 8] 32
      (by decide) (Or.inl rfl)⟩

end Trigger

namespace Trigger

unseal Rat.mul Rat.add Rat.sub Rat.inv

/-- Fed sample ids appended by `_add`: exactly the finite-current ids of the
half-open range. -/
theorem add_fedIds (stream : SStream) (cfg : Config) (st : CState) (s e : ℕ) :
    (Capture.add stream cfg st s e).fedIds
      = st.fedIds ++ (List.range' s (e - s)).filter (fun k => (stream k).curFinite) := by
  unfold Capture.add
  dsimp only
  split
  case isTrue h =>
    rw [List.length_map, List.length_eq_zero] at h
    rw [h, List.append_nil]
  case isFalse h => rfl

/-- The fed set recorded in a single-call window record: nothing when the
window spans at most three samples, otherwise the finite-current samples of
`[start+1, end-1)`. -/
def FedSpec (stream : SStream) (r : Record) : Prop :=
  r.fedIds = if r.timeStart + 3 < r.timeEnd
    then (List.range' (r.timeStart + 1) (r.timeEnd - 1 - (r.timeStart + 1))).filter
      (fun k => (stream k).curFinite)
    else []

/-- All records satisfy the single-call fed-set description. -/
def FedRecs (stream : SStream) (l : List Record) : Prop := ∀ r ∈ l, FedSpec stream r

/-- Loop invariant for the single-call fed-set claim: within one call, an
open window was opened in this very call one position before the current
search position, with a still-empty fed set — or the search is exhausted. -/
def QLoop (stream : SStream) (cfg : Config) (s e : ℕ) (st : CState) : Prop :=
  FedRecs stream st.records ∧ (cfg.countMax ≠ 0 → st.count < cfg.countMax) ∧
  (st.triggered = true →
    (∃ t, st.timeStart = some t ∧ s = t + 1 ∧ st.fedIds = []) ∨ e ≤ s)

/-- Result invariant of the single-call fed-set claim. -/
def QOut (stream : SStream) (p : CState × Bool) : Prop :=
  FedRecs stream p.1.records ∧ (p.2 = true → p.1.triggered = false)

/-- The processing loop establishes the single-call fed-set description. -/
theorem QOut_loop (stream : SStream) (cfg : Config) (e : ℕ) :
    ∀ fuel s st, QLoop stream cfg s e st → QOut stream (loop stream cfg e s st fuel) := by
  intro fuel
  induction fuel with
  | zero =>
    intro s st h
    show QOut stream (st, false)
    exact ⟨h.1, fun h' => by simp at h'⟩
  | succ fuel ih =>
    intro s st h
    obtain ⟨hF, hC, hW⟩ := h
    rw [loop]
    dsimp only
    split
    case isTrue hse =>
      split
      case isTrue htr =>
        rcases hsf : startFn stream cfg
            { st with events := st.events ++ [Event.searchStart s e] } s e with ⟨t?, st2⟩
        have hd := startFn_snd stream cfg
          { st with events := st.events ++ [Event.searchStart s e] } s e
        rw [hsf] at hd
        dsimp only at hd
        have hst2 : st2.triggered = st.triggered ∧ st2.count = st.count ∧
            st2.records = st.records := by
          rcases hd with hd | hd <;> rw [hd] <;> exact ⟨rfl, rfl, rfl⟩
        rcases t? with _ | t
        · dsimp only
          split
          case isTrue hchk =>
            exact ⟨by rw [hst2.2.2]; exact hF, fun _ => by rw [hst2.1]; exact htr⟩
          case isFalse hchk =>
            apply ih
            refine ⟨by rw [hst2.2.2]; exact hF, ?_, ?_⟩
            · intro hne
              rw [hst2.2.1]
              exact hC hne
            · intro hw
              rw [hst2.1, htr] at hw
              exact absurd hw (by simp)
        · dsimp only
          have hs3 := start_spec st2 t (by rw [hst2.1]; exact htr)
          split
          case isTrue hchk =>
            obtain ⟨hne, hle⟩ := hchk
            rw [hs3] at hle
            dsimp only at hle
            rw [hst2.2.1] at hle
            have := hC hne
            omega
          case isFalse hchk =>
            apply ih
            refine ⟨?_, ?_, ?_⟩
            · show FedRecs stream (Capture.start st2 t).records
              rw [hs3]
              dsimp only
              rw [hst2.2.2]
              exact hF
            · intro hne
              show (Capture.start st2 t).count < cfg.countMax
              rw [hs3]
              dsimp only
              rw [hst2.2.1]
              exact hC hne
            · intro _
              left
              refine ⟨t, ?_, rfl, ?_⟩
              · show (Capture.start st2 t).timeStart = some t
                rw [hs3]
              · show (Capture.start st2 t).fedIds = []
                rw [hs3]
      case isFalse htr =>
        simp only [Bool.not_eq_false] at htr
        rcases hW htr with ⟨tw, htw, hstw, hfed⟩ | hes
        case inr => omega
        rcases hef : endFn stream cfg
            { st with events := st.events ++ [Event.searchEnd s e] } s e with _ | j
        · dsimp only
          have ha := add_fields stream cfg
            { st with events := st.events ++ [Event.searchEnd s e] } s e
          split
          case isTrue hchk =>
            obtain ⟨hne, hle⟩ := hchk
            rw [ha.2.2.1] at hle
            dsimp only at hle
            have := hC hne
            omega
          case isFalse hchk =>
            apply ih
            refine ⟨by rw [ha.2.2.2.1]; exact hF, ?_, ?_⟩
            · intro hne
              rw [ha.2.2.1]
              exact hC hne
            · intro _
              right
              exact Nat.le_refl e
        · dsimp only
          split
          case isTrue hadd =>
            have haf := add_fields stream cfg
              { st with events := st.events ++ [Event.searchEnd s e] } s (j - 1)
            have htr5 : (Capture.add stream cfg
                { st with events := st.events ++ [Event.searchEnd s e] } s (j - 1)).triggered
                = true := by rw [haf.1]; exact htr
            obtain ⟨r, hr1, hr2, hr3, hr4, hr5, hr6, hr7, hr8⟩ :=
              stop_spec _ (some j) htr5
            have hFr : FedRecs stream (Capture.stop
                (Capture.add stream cfg
                  { st with events := st.events ++ [Event.searchEnd s e] } s (j - 1))
                (some j)).records := by
              rw [hr1, haf.2.2.2.1]
              intro r' hmem
              rw [List.mem_append] at hmem
              rcases hmem with hmem | hmem
              · exact hF r' hmem
              · rw [List.mem_singleton] at hmem
                subst hmem
                unfold FedSpec
                rw [hr4, add_fedIds, hr2, hr3, haf.2.1]
                dsimp only
                rw [htw, hfed]
                simp only [Option.getD_some, List.nil_append]
                rw [if_pos (by omega)]
                rw [hstw]
            split
            case isTrue hchk => exact ⟨hFr, fun _ => hr5⟩
            case isFalse hchk =>
              apply ih
              refine ⟨hFr, ?_, ?_⟩
              · intro hne
                rw [hr6, haf.2.2.1]
                dsimp only
                rcases Nat.lt_or_ge (st.count + 1) cfg.countMax with hlt | hge
                · exact hlt
                · exfalso
                  apply hchk
                  refine ⟨hne, ?_⟩
                  rw [hr6, haf.2.2.1]
                  dsimp only
                  omega
              · intro hw
                rw [hr5] at hw
                exact absurd hw (by simp)
          case isFalse hadd =>
            have htr5 : ({ st with events := st.events ++ [Event.searchEnd s e] }
                : CState).triggered = true := htr
            obtain ⟨r, hr1, hr2, hr3, hr4, hr5, hr6, hr7, hr8⟩ :=
              stop_spec _ (some j) htr5
            have hFr : FedRecs stream (Capture.stop
                { st with events := st.events ++ [Event.searchEnd s e] }
                (some j)).records := by
              rw [hr1]
              intro r' hmem
              rw [List.mem_append] at hmem
              rcases hmem with hmem | hmem
              · exact hF r' hmem
              · rw [List.mem_singleton] at hmem
                subst hmem
                unfold FedSpec
                rw [hr4, hr2, hr3]
                dsimp only
                rw [htw, hfed]
                simp only [Option.getD_some]
                rw [if_neg (by omega)]
            split
            case isTrue hchk => exact ⟨hFr, fun _ => hr5⟩
            case isFalse hchk =>
              apply ih
              refine ⟨hFr, ?_, ?_⟩
              · intro hne
                rw [hr6]
                dsimp only
                rcases Nat.lt_or_ge (st.count + 1) cfg.countMax with hlt | hge
                · exact hlt
                · exfalso
                  apply hchk
                  refine ⟨hne, ?_⟩
                  rw [hr6]
                  dsimp only
                  omega
              · intro hw
                rw [hr5] at hw
                exact absurd hw (by simp)
    case isFalse hse => exact ⟨hF, fun h' => by simp at h'⟩

end Trigger

namespace Trigger

unseal Rat.mul Rat.add Rat.sub Rat.inv

/-- C3 amended: in a run consisting of a single process-batch call over
`[0, n)`, every emitted window record `[i, j)` has received exactly the
finite-current samples of `[i + 1, j - 1)` when `j > i + 3`, and no sample
at all otherwise; in particular the start-trigger sample `i` and the sample
`j - 1` are never fed to the accumulator. -/
theorem c3_single_call_fed_exact (stream : SStream) (cfg : Config) (n fuel : ℕ)
    (r : Record) (hr : r ∈ (runCapture stream cfg [Op.batch 0 n] fuel).records) :
    r.fedIds = if r.timeStart + 3 < r.timeEnd
      then (List.range' (r.timeStart + 1) (r.timeEnd - 1 - (r.timeStart + 1))).filter
        (fun k => (stream k).curFinite)
      else [] := by
  have key : FedRecs stream (runCapture stream cfg [Op.batch 0 n] fuel).records := by
    unfold runCapture
    rw [runOps]
    rcases hp : processBatch stream cfg {} 0 n fuel with ⟨st', done⟩
    have hQ : QOut stream (st', done) := by
      have hq0 : QOut stream (processBatch stream cfg {} 0 n fuel) := by
        unfold processBatch
        dsimp only
        split
        case isTrue _ =>
          exact ⟨fun r h => absurd h (List.not_mem_nil r), fun h' => by simp at h'⟩
        case isFalse _ =>
          apply QOut_loop
          refine ⟨fun r h => absurd h (List.not_mem_nil r),
            fun hne => Nat.pos_of_ne_zero hne, fun hw => by simp at hw⟩
      rw [hp] at hq0
      exact hq0
    cases done
    · exact hQ.1
    · have ht' := hQ.2 rfl
      show FedRecs stream (Capture.close st').records
      unfold Capture.close
      rw [stop_not_triggered none ht']
      exact hQ.1
  exact key r hr

/-- C3 witness: the first record of the worked-example run, whose window
`[0, 3)` spans three samples, received no samples at all. -/
theorem c3_single_call_fed_exact_witness :
    ((runSpec.records.getD 0 zeroRec) ∈ runSpec.records) ∧
    (runSpec.records.getD 0 zeroRec).fedIds
      = (if (runSpec.records.getD 0 zeroRec).timeStart + 3
            < (runSpec.records.getD 0 zeroRec).timeEnd
         then (List.range' ((runSpec.records.getD 0 zeroRec).timeStart + 1)
            ((runSpec.records.getD 0 zeroRec).timeEnd - 1
              - ((runSpec.records.getD 0 zeroRec).timeStart + 1))).filter
            (fun k => ((streamOfBits bitsSpec) k).curFinite)
         else []) :=
  ⟨by decide,
    c3_single_call_fed_exact (streamOfBits bitsSpec) cfgRF 8 32 _ (by decide)⟩

end Trigger

namespace Trigger

unseal Rat.mul Rat.add Rat.sub Rat.inv

/-- A fired channel-based (non-duration) start trigger lies at or after the
start of the searched range. -/
theorem startFn_ge {stream : SStream} {cfg : Config} {st st' : CState} {s e t : ℕ}
    (h : startFn stream cfg st s e = (some t, st')) (hse : s < e)
    (hk : cfg.startKind ≠ TrigKind.tduration) : s ≤ t := by
  unfold startFn at h
  cases hkk : cfg.startKind <;> rw [hkk] at h
  case tnone => cases h; exact Nat.le_refl _
  case tlow => exact (inLevelLow_bounds (congrArg Prod.fst h) hse).1
  case thigh => exact (inLevelHigh_bounds (congrArg Prod.fst h) hse).1
  case trising => exact (inEdgeRising_bounds (congrArg Prod.fst h) hse).1
  case tfalling => exact (inEdgeFalling_bounds (congrArg Prod.fst h) hse).1
  case tduration => exact absurd hkk hk

/-- A fired channel-based (non-duration) end trigger lies below the end of
the searched range. -/
theorem endFn_lt {stream : SStream} {cfg : Config} {st : CState} {s e j : ℕ}
    (h : endFn stream cfg st s e = some j) (hse : s < e)
    (hk : cfg.endKind ≠ TrigKind.tduration) : j < e := by
  unfold endFn at h
  cases hkk : cfg.endKind <;> rw [hkk] at h
  case tnone => exact absurd h (by simp)
  case tlow => exact (inLevelLow_bounds h hse).2
  case thigh => exact (inLevelHigh_bounds h hse).2
  case trising => exact (inEdgeRising_bounds h hse).2
  case tfalling => exact (inEdgeFalling_bounds h hse).2
  case tduration => exact absurd hkk hk

/-- Without a duration start condition `startFn` never mutates the state. -/
theorem startFn_snd_nodur (stream : SStream) (cfg : Config) (st : CState) (s e : ℕ)
    (hk : cfg.startKind ≠ TrigKind.tduration) :
    (startFn stream cfg st s e).2 = st := by
  unfold startFn
  cases hkk : cfg.startKind <;> dsimp only
  case tduration => exact absurd hkk hk

/-- Events appended as a `stop` on an open window. -/
theorem stop_events (st : CState) (e? : Option ℕ) (ht : st.triggered = true) :
    (Capture.stop st e?).events = st.events ++
      [Event.emitRec (st.timeStart.getD 0)
        (match e? with | some i => i | none => st.sampleIdLast.getD 0) e?.isNone] := by
  unfold Capture.stop
  split
  case isTrue hf => rw [ht] at hf; exact absurd hf (by simp)
  case isFalse => rfl

/-- The searched range carried by a ghost event, when it is a search
event. -/
def searchRange : Event → Option (ℕ × ℕ)
  | .searchStart lo hi => some (lo, hi)
  | .searchEnd lo hi => some (lo, hi)
  | .emitRec _ _ _ => none

/-- Order between two events: a non-flush emitted record precedes only
searches that begin strictly beyond its end id. -/
def evStep (a b : Event) : Prop :=
  ∀ ts te lo hi, a = Event.emitRec ts te false → searchRange b = some (lo, hi) → te < lo

/-- An event log is monotone when every pair of an emitted (non-flush)
record and a later search respects `evStep`. -/
def EventsMono (l : List Event) : Prop := l.Pairwise evStep

/-- Every non-flush record in the log ends strictly below the bound. -/
def AllRecLt (l : List Event) (b : ℕ) : Prop :=
  ∀ ts te, Event.emitRec ts te false ∈ l → te < b

/-- Appending an event whose search range (if any) bounds all previous
records keeps the log monotone. -/
theorem EventsMono_append (l : List Event) (ev : Event) (hm : EventsMono l)
    (h : ∀ lo hi, searchRange ev = some (lo, hi) → AllRecLt l lo) :
    EventsMono (l ++ [ev]) := by
  rw [EventsMono, List.pairwise_append]
  refine ⟨hm, List.pairwise_singleton _ _, ?_⟩
  intro a ha b hb
  rw [List.mem_singleton] at hb
  subst hb
  intro ts te lo hi hrec hsr
  subst hrec
  exact h lo hi hsr ts te ha

/-- `AllRecLt` is preserved by appending a bounded (or non-record) event. -/
theorem AllRecLt_append (l : List Event) (ev : Event) (b : ℕ) (h : AllRecLt l b)
    (h2 : ∀ ts te, ev = Event.emitRec ts te false → te < b) :
    AllRecLt (l ++ [ev]) b := by
  intro ts te hmem
  rw [List.mem_append] at hmem
  rcases hmem with hmem | hmem
  · exact h ts te hmem
  · rw [List.mem_singleton] at hmem
    exact h2 ts te hmem.symm

/-- `AllRecLt` is monotone in the bound. -/
theorem AllRecLt_le {l : List Event} {b b' : ℕ} (h : AllRecLt l b) (hb : b ≤ b') :
    AllRecLt l b' :=
  fun ts te hm => lt_of_lt_of_le (h ts te hm) hb

/-- Loop invariant for the event-monotonicity claim. -/
def MLoop (cfg : Config) (s e : ℕ) (st : CState) : Prop :=
  EventsMono st.events ∧ AllRecLt st.events s ∧ s ≤ e ∧
  (∀ l, st.sampleIdLast = some l → AllRecLt st.events l) ∧
  (cfg.countMax ≠ 0 → st.count < cfg.countMax) ∧
  (st.sampleIdLast = none → ∀ b, AllRecLt st.events b)

/-- Result invariant of one `__call__` for the event-monotonicity claim. -/
def MOut (cfg : Config) (p : CState × Bool) : Prop :=
  EventsMono p.1.events ∧
  (p.2 = false →
    (∀ l, p.1.sampleIdLast = some l → AllRecLt p.1.events l) ∧
    (cfg.countMax ≠ 0 → p.1.count < cfg.countMax) ∧
    (p.1.sampleIdLast = none → ∀ b, AllRecLt p.1.events b))

end Trigger

namespace Trigger

unseal Rat.mul Rat.add Rat.sub Rat.inv

/-- Re-establish the event-monotonicity loop invariant at the next search
position. -/
theorem MLoop_step (cfg : Config) (s' e : ℕ) (X : CState)
    (h1 : EventsMono X.events) (h2 : AllRecLt X.events s') (h3 : s' ≤ e)
    (h4 : cfg.countMax ≠ 0 → X.count < cfg.countMax) :
    MLoop cfg s' e { X with sampleIdLast := some s' } := by
  refine ⟨h1, ?_, h3, ?_, h4, ?_⟩
  · exact h2
  · intro l hl
    have hsl : some s' = some l := hl
    obtain rfl : s' = l := by injection hsl
    exact h2
  · intro hnone
    exact absurd (show some s' = none from hnone) (by simp)

/-- The processing loop preserves event monotonicity for channel-based
configurations. -/
theorem MOut_loop (stream : SStream) (cfg : Config) (e : ℕ)
    (Hs : cfg.startKind ≠ TrigKind.tduration) (He : cfg.endKind ≠ TrigKind.tduration) :
    ∀ fuel s st, MLoop cfg s e st → MOut cfg (loop stream cfg e s st fuel) := by
  intro fuel
  induction fuel with
  | zero =>
    intro s st h
    show MOut cfg (st, false)
    exact ⟨h.1, fun _ => ⟨h.2.2.2.1, h.2.2.2.2.1, h.2.2.2.2.2⟩⟩
  | succ fuel ih =>
    intro s st h
    obtain ⟨hM, hA, hsle, hL, hC, hN⟩ := h
    rw [loop]
    dsimp only
    split
    case isTrue hse =>
      split
      case isTrue htr =>
        have hm1 : EventsMono (st.events ++ [Event.searchStart s e]) := by
          apply EventsMono_append _ _ hM
          intro lo hi hsr
          have hlo : lo = s := by
            simp [searchRange] at hsr
            exact hsr.1.symm
          rw [hlo]
          exact hA
        have ha1 : AllRecLt (st.events ++ [Event.searchStart s e]) s :=
          AllRecLt_append _ _ _ hA (fun ts te hev => nomatch hev)
        rcases hsf : startFn stream cfg
            { st with events := st.events ++ [Event.searchStart s e] } s e with ⟨t?, st2⟩
        have hse2 : st2 = { st with events := st.events ++ [Event.searchStart s e] } := by
          have h' := startFn_snd_nodur stream cfg
            { st with events := st.events ++ [Event.searchStart s e] } s e Hs
          rw [hsf] at h'
          exact h'
        subst hse2
        rcases t? with _ | t
        · dsimp only
          split
          case isTrue hchk => exact ⟨hm1, fun h' => by simp at h'⟩
          case isFalse hchk =>
            apply ih
            exact MLoop_step cfg e e
              { st with events := st.events ++ [Event.searchStart s e] }
              hm1 (AllRecLt_le ha1 hsle) (Nat.le_refl e) (fun hne => hC hne)
        · dsimp only
          have hge := startFn_ge hsf hse Hs
          have hlt := startFn_lt hsf hse
          have hs3 := start_spec
            { st with events := st.events ++ [Event.searchStart s e] } t htr
          split
          case isTrue hchk =>
            obtain ⟨hne, hle⟩ := hchk
            rw [hs3] at hle
            dsimp only at hle
            have := hC hne
            omega
          case isFalse hchk =>
            apply ih
            apply MLoop_step
            · rw [hs3]
            
              exact hm1
            · rw [hs3]
              exact AllRecLt_le ha1 (by omega)
            · omega
            · rw [hs3]
              intro hne
              exact hC hne
      case isFalse htr =>
        simp only [Bool.not_eq_false] at htr
        have hm1 : EventsMono (st.events ++ [Event.searchEnd s e]) := by
          apply EventsMono_append _ _ hM
          intro lo hi hsr
          have hlo : lo = s := by
            simp [searchRange] at hsr
            exact hsr.1.symm
          rw [hlo]
          exact hA
        have ha1 : AllRecLt (st.events ++ [Event.searchEnd s e]) s :=
          AllRecLt_append _ _ _ hA (fun ts te hev => nomatch hev)
        rcases hef : endFn stream cfg
            { st with events := st.events ++ [Event.searchEnd s e] } s e with _ | j
        · dsimp only
          have haf := add_fields stream cfg
            { st with events := st.events ++ [Event.searchEnd s e] } s e
          split
          case isTrue hchk =>
            refine ⟨?_, fun h' => by simp at h'⟩
            rw [haf.2.2.2.2.2]
            exact hm1
          case isFalse hchk =>
            apply ih
            apply MLoop_step
            · rw [haf.2.2.2.2.2]
              exact hm1
            · rw [haf.2.2.2.2.2]
              exact AllRecLt_le ha1 hsle
            · exact Nat.le_refl e
            · rw [haf.2.2.1]
              intro hne
              exact hC hne
        · dsimp only
          have hjge := endFn_ge hef hse He
          have hjlt := endFn_lt hef hse He
          split
          case isTrue hadd =>
            have haf := add_fields stream cfg
              { st with events := st.events ++ [Event.searchEnd s e] } s (j - 1)
            have htrX : (Capture.add stream cfg
                { st with events := st.events ++ [Event.searchEnd s e] } s (j - 1)).triggered
                = true := by rw [haf.1]; exact htr
            have hev := stop_events _ (some j) htrX
            dsimp only at hev
            have hmY : EventsMono (Capture.stop
                (Capture.add stream cfg
                  { st with events := st.events ++ [Event.searchEnd s e] } s (j - 1))
                (some j)).events := by
              rw [hev, haf.2.2.2.2.2]
              exact EventsMono_append _ _ hm1 (fun lo hi hsr => nomatch hsr)
            have haY : AllRecLt (Capture.stop
                (Capture.add stream cfg
                  { st with events := st.events ++ [Event.searchEnd s e] } s (j - 1))
                (some j)).events (j + 1) := by
              rw [hev, haf.2.2.2.2.2]
              apply AllRecLt_append _ _ _ (AllRecLt_le ha1 (by omega))
              intro ts te hcon
              injection hcon with hc1 hc2 hc3
              omega
            obtain ⟨r, hr1, hr2, hr3, hr4, hr5, hr6, hr7, hr8⟩ :=
              stop_spec _ (some j) htrX
            split
            case isTrue hchk => exact ⟨hmY, fun h' => by simp at h'⟩
            case isFalse hchk =>
              apply ih
              apply MLoop_step
              · exact hmY
              · exact haY
              · omega
              · intro hne
                rw [hr6, haf.2.2.1]
                dsimp only
                rcases Nat.lt_or_ge (st.count + 1) cfg.countMax with hlt2 | hge2
                · exact hlt2
                · exfalso
                  apply hchk
                  refine ⟨hne, ?_⟩
                  rw [hr6, haf.2.2.1]
                  dsimp only
                  omega
          case isFalse hadd =>
            have htrX : ({ st with events := st.events ++ [Event.searchEnd s e] }
                : CState).triggered = true := htr
            have hev := stop_events _ (some j) htrX
            dsimp only at hev
            have hmY : EventsMono (Capture.stop
                { st with events := st.events ++ [Event.searchEnd s e] }
                (some j)).events := by
              rw [hev]
              exact EventsMono_append _ _ hm1 (fun lo hi hsr => nomatch hsr)
            have haY : AllRecLt (Capture.stop
                { st with events := st.events ++ [Event.searchEnd s e] }
                (some j)).events (j + 1) := by
              rw [hev]
              apply AllRecLt_append _ _ _ (AllRecLt_le ha1 (by omega))
              intro ts te hcon
              injection hcon with hc1 hc2 hc3
              omega
            obtain ⟨r, hr1, hr2, hr3, hr4, hr5, hr6, hr7, hr8⟩ :=
              stop_spec _ (some j) htrX
            split
            case isTrue hchk => exact ⟨hmY, fun h' => by simp at h'⟩
            case isFalse hchk =>
              apply ih
              apply MLoop_step
              · exact hmY
              · exact haY
              · omega
              · intro hne
                rw [hr6]
                dsimp only
                rcases Nat.lt_or_ge (st.count + 1) cfg.countMax with hlt2 | hge2
                · exact hlt2
                · exfalso
                  apply hchk
                  refine ⟨hne, ?_⟩
                  rw [hr6]
                  dsimp only
                  omega
    case isFalse hse =>
      refine ⟨hM, fun _ => ⟨?_, hC, ?_⟩⟩
      · intro l hl
        have hsl : some e = some l := hl
        obtain rfl : e = l := by injection hsl
        exact AllRecLt_le hA hsle
      · intro hnone
        exact absurd (show some e = none from hnone) (by simp)

end Trigger

namespace Trigger

unseal Rat.mul Rat.add Rat.sub Rat.inv

/-- Run-level invariant for the event-monotonicity claim. -/
def MState (cfg : Config) (st : CState) : Prop :=
  EventsMono st.events ∧
  (∀ l, st.sampleIdLast = some l → AllRecLt st.events l) ∧
  (st.sampleIdLast = none → ∀ b, AllRecLt st.events b) ∧
  (cfg.countMax ≠ 0 → st.count < cfg.countMax)

/-- `__call__` preserves the event-monotonicity invariant. -/
theorem MOut_processBatch (stream : SStream) (cfg : Config)
    (Hs : cfg.startKind ≠ TrigKind.tduration) (He : cfg.endKind ≠ TrigKind.tduration)
    (st : CState) (lo hi fuel : ℕ) (h : MState cfg st) :
    MOut cfg (processBatch stream cfg st lo hi fuel) := by
  obtain ⟨hM, hL, hN, hC⟩ := h
  unfold processBatch
  rcases hsl : st.sampleIdLast with _ | l0 <;> dsimp only
  · split
    case isTrue hle =>
      exact ⟨hM, fun _ => ⟨hL, hC, fun _ => hN hsl⟩⟩
    case isFalse hgt =>
      apply MOut_loop stream cfg hi Hs He
      rw [Nat.not_le] at hgt
      exact ⟨hM, hN hsl lo, by omega, hL, hC, fun _ => hN hsl⟩
  · split
    case isTrue hlt =>
      split
      case isTrue hle =>
        exact ⟨hM, fun _ => ⟨hL, hC, fun hn => absurd (hsl ▸ hn) (by simp)⟩⟩
      case isFalse hgt =>
        apply MOut_loop stream cfg hi Hs He
        rw [Nat.not_le] at hgt
        refine ⟨hM, hL l0 hsl, by omega, hL, hC, fun hn => absurd (hsl ▸ hn) (by simp)⟩
    case isFalse hge =>
      split
      case isTrue hle =>
        exact ⟨hM, fun _ => ⟨hL, hC, fun hn => absurd (hsl ▸ hn) (by simp)⟩⟩
      case isFalse hgt =>
        apply MOut_loop stream cfg hi Hs He
        rw [Nat.not_le] at hgt
        rw [Nat.not_lt] at hge
        refine ⟨hM, AllRecLt_le (hL l0 hsl) hge, by omega, hL, hC,
          fun hn => absurd (hsl ▸ hn) (by simp)⟩

/-- `close` preserves event monotonicity; its flush record never constrains
later searches. -/
theorem MState_close (_cfg : Config) (st : CState)
    (hM : EventsMono st.events)
    (hL : ∀ l, st.sampleIdLast = some l → AllRecLt st.events l)
    (hN : st.sampleIdLast = none → ∀ b, AllRecLt st.events b) :
    EventsMono (Capture.close st).events ∧
    (∀ l, (Capture.close st).sampleIdLast = some l → AllRecLt (Capture.close st).events l) ∧
    ((Capture.close st).sampleIdLast = none → ∀ b, AllRecLt (Capture.close st).events b) ∧
    (Capture.close st).count ≤ st.count + 1 := by
  unfold Capture.close
  cases ht : st.triggered
  · rw [stop_not_triggered none ht]
    exact ⟨hM, hL, hN, Nat.le_succ _⟩
  · have hev := stop_events st none ht
    dsimp only at hev
    obtain ⟨r, hr1, hr2, hr3, hr4, hr5, hr6, hr7, hr8⟩ := stop_spec st none ht
    have hflrec : ∀ ts te b,
        (Event.emitRec (st.timeStart.getD 0) (st.sampleIdLast.getD 0) true
          = Event.emitRec ts te false) → te < b := by
      intro ts te b hcon
      injection hcon with hc1 hc2 hc3
      exact absurd hc3 (by simp)
    refine ⟨?_, ?_, ?_, ?_⟩
    · rw [hev]
      exact EventsMono_append _ _ hM (fun lo hi hsr => nomatch hsr)
    · intro l hl
      rw [hev]
      rw [hr8] at hl
      exact AllRecLt_append _ _ _ (hL l hl) (fun ts te => hflrec ts te l)
    · intro hn b
      rw [hev]
      rw [hr8] at hn
      exact AllRecLt_append _ _ _ (hN hn b) (fun ts te => hflrec ts te b)
    · rw [hr6]

/-- C7 amended: with channel-based (non-duration) start and end conditions
and the script's flush discipline, the event log of any run is monotone:
once a window record `[i, j)` is emitted by a fired end condition, every
range subsequently handed to a detection function begins strictly after
`j`, i.e. the end-trigger sample `j` is consumed and never searched
again. -/
theorem c7_end_sample_consumed (stream : SStream) (cfg : Config)
    (ops : List Op) (fuel : ℕ)
    (Hs : cfg.startKind ≠ TrigKind.tduration) (He : cfg.endKind ≠ TrigKind.tduration)
    (Hfl : cfg.countMax = 0 ∨ ∀ op ∈ ops.dropLast, op ≠ Op.flush) :
    EventsMono (runCapture stream cfg ops fuel).events := by
  have main : ∀ ops' st, MState cfg st →
      (cfg.countMax = 0 ∨ ∀ op ∈ ops'.dropLast, op ≠ Op.flush) →
      EventsMono (runOps stream cfg fuel st ops').events := by
    intro ops'
    induction ops' with
    | nil => intro st h _; exact h.1
    | cons op rest ih =>
      intro st h hfl
      obtain ⟨hM, hL, hN, hC⟩ := h
      cases op with
      | flush =>
        rw [runOps]
        obtain ⟨hc1, hc2, hc3, hc4⟩ := MState_close cfg st hM hL hN
        cases rest with
        | nil => exact hc1
        | cons op2 rest2 =>
          have hz : cfg.countMax = 0 := by
            rcases hfl with hz | hfl
            · exact hz
            · exact absurd rfl (hfl Op.flush (by simp [List.dropLast_cons₂]))
          apply ih
          · exact ⟨hc1, hc2, hc3, fun hne => absurd hz hne⟩
          · exact Or.inl hz
      | batch lo hi =>
        rw [runOps]
        rcases hp : processBatch stream cfg st lo hi fuel with ⟨st', done⟩
        have hB : MOut cfg (st', done) := by
          have := MOut_processBatch stream cfg Hs He st lo hi fuel ⟨hM, hL, hN, hC⟩
          rw [hp] at this
          exact this
        cases done
        · apply ih
          · exact ⟨hB.1, (hB.2 rfl).1, (hB.2 rfl).2.2, (hB.2 rfl).2.1⟩
          · rcases hfl with hz | hfl
            · exact Or.inl hz
            · refine Or.inr ?_
              intro op2 hop2
              apply hfl
              cases rest with
              | nil => exact absurd hop2 (by simp at hop2)
              | cons op3 rest3 =>
                rw [List.dropLast_cons₂]
                exact List.mem_cons_of_mem _ hop2
        · show EventsMono (Capture.close st').events
          have hM' := hB.1
          unfold Capture.close
          cases ht' : st'.triggered
          · rw [stop_not_triggered none ht']
            exact hM'
          · have hev := stop_events st' none ht'
            rw [hev]
            exact EventsMono_append _ _ hM' (fun lo hi hsr => nomatch hsr)
  apply main ops {} ?_ Hfl
  refine ⟨List.Pairwise.nil, ?_, ?_, ?_⟩
  · intro l hl
    exact absurd hl (by simp)
  · intro _ b ts te hm
    exact absurd hm (List.not_mem_nil _)
  · intro hne
    exact Nat.pos_of_ne_zero hne

/-- C7 witness: the amended monotonicity at the level/level run. -/
theorem c7_end_sample_consumed_witness :
    (cfgHH.startKind ≠ TrigKind.tduration) ∧ EventsMono runHH.events :=
  ⟨by decide,
    c7_end_sample_consumed (streamOfBits bitsPulse) cfgHH [Op.batch 0 4] 32
      (by decide) (by decide) (Or.inl rfl)⟩

end Trigger

namespace WAccum

/-- Minimum window length `SAMPLE_COUNT_MIN = 10` of `windowed_accum.py`. -/
def SAMPLE_COUNT_MIN : ℕ := 10

/-- Mutable state of a `WindowDetect` object.  `outputs` holds the window
bounds of every line printed/written (the line's numeric content comes from
the external `statistics_get`/`stats_to_api`, which are out of scope);
`detected` is ghost instrumentation recording every window handed to
`_process`, including those it discards. -/
structure WState where
  sampleIdLast : Option ℕ := none
  sampleIdStart : Option ℕ := none
  sampleIdEnd : Option ℕ := none
  outputs : List (ℕ × ℕ) := []
  detected : List (ℕ × ℕ) := []
deriving DecidableEq, Repr

/-- `WindowDetect._process(stream_buffer, start_id, end_id)`: discard the
window when it is shorter than `SAMPLE_COUNT_MIN`, otherwise emit one output
line for it. -/
def process (st : WState) (s e : ℕ) : WState :=
  let st := { st with detected := st.detected ++ [(s, e)] }
  if e - s < SAMPLE_COUNT_MIN then st
  else { st with outputs := st.outputs ++ [(s, e)] }

/-- The `while start_id < end_id` loop of `WindowDetect.__call__`: `s` is the
local `start_id`, `last` mirrors `self.sample_id_last` (the base index of
`gpi`), and `gpi` is sliced by the consumed sample count at the end of each
iteration exactly as in the source. -/
def wloop (e : ℕ) : ℕ → ℕ → List Bool → WState → ℕ → WState
  | _, _, _, st, 0 => st
  | s, last, gpi, st, fuel + 1 =>
    if s < e then
      match st.sampleIdStart with
      | none =>
        if gpi.any (fun b => b) then
          let strt := last + gpi.findIdx (fun b => b)
          wloop e strt strt (gpi.drop (strt - s))
            { st with sampleIdStart := some strt, sampleIdLast := some strt } fuel
        else
          wloop e e e (gpi.drop (e - s)) { st with sampleIdLast := some e } fuel
      | some wstart =>
        if gpi.all (fun b => b) then
          wloop e e e (gpi.drop (e - s)) { st with sampleIdLast := some e } fuel
        else
          let wend := last + gpi.findIdx (fun b => b = false)
          let st := process { st with sampleIdEnd := some wend } wstart wend
          wloop e wend wend (gpi.drop (wend - s))
            { st with sampleIdStart := none, sampleIdLast := some wend } fuel
    else st

/-- `WindowDetect.__call__(stream_buffer)`. -/
def wcall (stream : Trigger.SStream) (st : WState) (bufLo bufHi fuel : ℕ) : WState :=
  if bufHi ≤ bufLo then st
  else
    match st.sampleIdLast with
    | none =>
        wloop bufHi bufLo bufLo
          (Trigger.samplesGet stream Trigger.Chan.in0 bufLo bufHi)
          { st with sampleIdLast := some bufLo } fuel
    | some l =>
        if bufHi ≤ l then st
        else
          wloop bufHi bufLo l
            (Trigger.samplesGet stream Trigger.Chan.in0 l bufHi) st fuel

/-- Drive a `WindowDetect` through a list of delivered buffer ranges from
its initial state. -/
def wrun (stream : Trigger.SStream) (batches : List (ℕ × ℕ)) (fuel : ℕ) : WState :=
  batches.foldl (fun st p => wcall stream st p.1 p.2 fuel) {}

/-- Keep condition of `_process`: the negation of `d_id < SAMPLE_COUNT_MIN`. -/
def keepPred (p : ℕ × ℕ) : Bool := ! decide (p.2 - p.1 < SAMPLE_COUNT_MIN)

/-- `_process` keeps the outputs exactly the kept detections. -/
theorem process_filter (st : WState) (s e : ℕ)
    (h : st.outputs = st.detected.filter keepPred) :
    (process st s e).outputs = (process st s e).detected.filter keepPred := by
  unfold process
  dsimp only
  split
  case isTrue hlt =>
    rw [List.filter_append]
    simp [keepPred, hlt, h]
  case isFalse hlt =>
    rw [List.filter_append]
    simp [keepPred, hlt, h]

/-- The loop keeps the outputs exactly the kept detections. -/
theorem wloop_filter (e : ℕ) :
    ∀ fuel s last gpi st, st.outputs = st.detected.filter keepPred →
      (wloop e s last gpi st fuel).outputs
        = (wloop e s last gpi st fuel).detected.filter keepPred := by
  intro fuel
  induction fuel with
  | zero => intro s last gpi st h; exact h
  | succ fuel ih =>
    intro s last gpi st h
    rw [wloop]
    split
    case isTrue hse =>
      rcases hst : st.sampleIdStart with _ | wstart <;> dsimp only
      · split
        · exact ih _ _ _ _ h
        · exact ih _ _ _ _ h
      · split
        · exact ih _ _ _ _ h
        · exact ih _ _ _ _ (process_filter _ _ _ h)
    case isFalse hse => exact h
  
/-- One `__call__` keeps the outputs exactly the kept detections. -/
theorem wcall_filter (stream : Trigger.SStream) (st : WState) (lo hi fuel : ℕ)
    (h : st.outputs = st.detected.filter keepPred) :
    (wcall stream st lo hi fuel).outputs
      = (wcall stream st lo hi fuel).detected.filter keepPred := by
  unfold wcall
  split
  · exact h
  rcases hsl : st.sampleIdLast with _ | l <;> dsimp only
  · exact wloop_filter _ _ _ _ _ _ h
  · split
    · exact h
    · exact wloop_filter _ _ _ _ _ _ h

/-- C9: in the `windowed_accum` variant, the emitted lines are exactly the
detected windows of length at least `SAMPLE_COUNT_MIN` (10): a detected
window shorter than 10 samples is silently discarded — it appears in the
ghost detection log but produces no output line — and every window of at
least 10 samples produces exactly its output line. -/
theorem c9_outputs_are_kept_detections (stream : Trigger.SStream)
    (batches : List (ℕ × ℕ)) (fuel : ℕ) :
    (wrun stream batches fuel).outputs
      = (wrun stream batches fuel).detected.filter keepPred := by
  unfold wrun
  have main : ∀ (bs : List (ℕ × ℕ)) (st : WState), st.outputs = st.detected.filter keepPred →
      (bs.foldl (fun st p => wcall stream st p.1 p.2 fuel) st).outputs
        = (bs.foldl (fun st p => wcall stream st p.1 p.2 fuel) st).detected.filter
            keepPred := by
    intro bs
    induction bs with
    | nil => intro st h; exact h
    | cons b rest ih =>
      intro st h
      exact ih _ (wcall_filter stream st b.1 b.2 fuel h)
  exact main batches {} rfl

end WAccum
